import Mathlib

/-!
# shortcircuit: tree mutation, positional paths and the changelog

A shallow embedding of `main.go` of `hherman1/shortcircuit`.

The Go program works on the pointer-linked `html.Node` tree of
`golang.org/x/net/html`.  Here a pointer is `Option Nat` (`none` is `nil`), the
memory is a total map from addresses to node records, and every assignment
`p.Field = v` is one update of that map, performed in the order of the source so
that aliasing between the operands behaves as it does in Go.  Loops that follow
sibling or parent links take a fuel argument (one unit per executed loop body or
recursive call) and return `none` when it runs out; loops bounded by an integer
counter recurse on that counter.  A `nil` dereference inside an operation is the
result `none` of that operation.  Go `int` is modelled by `Int`: the only
arithmetic is `i++` / `i--` along sibling lists, far below `2^63`.  Attribute
slices are lists (slices of different nodes are assumed not to share storage).
-/

namespace Shortcircuit

/-! ## The `html.Node` data model -/

/-- The node kinds of `html.NodeType`. -/
inductive NodeType where
  | ErrorNode
  | TextNode
  | DocumentNode
  | ElementNode
  | CommentNode
  | DoctypeNode
  | RawNode
  deriving DecidableEq, Repr

/-- The record `html.Attribute`. -/
structure Attribute where
  Namespace : String
  Key : String
  Val : String
  deriving DecidableEq, Repr

/-- The record `html.Node`; the field `Type` of the source is `Typ` here. -/
structure HtmlNode where
  Parent : Option Nat
  FirstChild : Option Nat
  LastChild : Option Nat
  PrevSibling : Option Nat
  NextSibling : Option Nat
  Typ : NodeType
  DataAtom : Nat
  Data : String
  Namespace : String
  Attr : List Attribute
  deriving DecidableEq, Repr

/-- The memory: every address holds a node record. -/
abbrev Heap := Nat → HtmlNode

/-- The assignment `a.Parent = v`. -/
def setParent (h : Heap) (a : Nat) (v : Option Nat) : Heap :=
  Function.update h a { h a with Parent := v }

/-- The assignment `a.FirstChild = v`. -/
def setFirstChild (h : Heap) (a : Nat) (v : Option Nat) : Heap :=
  Function.update h a { h a with FirstChild := v }

/-- The assignment `a.LastChild = v`. -/
def setLastChild (h : Heap) (a : Nat) (v : Option Nat) : Heap :=
  Function.update h a { h a with LastChild := v }

/-- The assignment `a.PrevSibling = v`. -/
def setPrevSibling (h : Heap) (a : Nat) (v : Option Nat) : Heap :=
  Function.update h a { h a with PrevSibling := v }

/-- The assignment `a.NextSibling = v`. -/
def setNextSibling (h : Heap) (a : Nat) (v : Option Nat) : Heap :=
  Function.update h a { h a with NextSibling := v }

/-- The assignment `a.Attr = v`. -/
def setAttr (h : Heap) (a : Nat) (v : List Attribute) : Heap :=
  Function.update h a { h a with Attr := v }

/-! ## Patch records and the changelog -/

/-- The type `ipath`: a sequence of child indexes. -/
abbrev ipath := List Int

/-- The type `rmattr`: the name of the attribute to remove. -/
abbrev rmattr := String

/-- The type `setattr`. -/
structure setattr where
  Key : String
  Val : String
  deriving DecidableEq, Repr

/-- The type `insertNode`: the index and the (non-nil) node to insert. -/
structure insertNode where
  i : Int
  n : Nat
  deriving DecidableEq, Repr

/-- The type `rmnode`: the index of the child to remove. -/
abbrev rmnode := Int

/-- The record `Change`; an unset variant pointer is `none`. -/
structure Change where
  IPath : ipath
  Setattr : Option setattr := none
  Rmattr : Option rmattr := none
  InsertNode : Option insertNode := none
  Rmnode : Option rmnode := none
  deriving DecidableEq, Repr

/-- The record `Changelog`. -/
structure Changelog where
  Buffer : List Change
  deriving DecidableEq, Repr

/-- The handle `Node`: the address of the backing node and of its changelog. -/
structure Node where
  N : Nat
  Cl : Nat
  deriving DecidableEq, Repr

/-- The whole mutable state: the node memory and the changelogs by address. -/
structure World where
  heap : Heap
  logs : Nat → Changelog

/-! ## Navigation -/

/-- The loop of `children`: follow `NextSibling` from `next` until `nil`. -/
def Node.childrenFrom (h : Heap) (cl : Nat) : Nat → Option Nat → Option (List Node)
  | _, none => some []
  | 0, some _ => none
  | fuel + 1, some a =>
    (Node.childrenFrom h cl fuel (h a).NextSibling).map (fun c => { N := a, Cl := cl } :: c)

/-- The method `children`: all the child nodes of this node. -/
def Node.children (n : Node) (h : Heap) (fuel : Nat) : Option (List Node) :=
  Node.childrenFrom h n.Cl fuel (h n.N).FirstChild

/-- The loop of `Body` over the children of the first child: the first one
whose `DataAtom` is `atom.Body`, or the handle `n` itself. -/
def Node.Body.scan (h : Heap) (atomBody : Nat) (n : Node) : List Node → Node
  | [] => n
  | maybe :: rest =>
    if (h maybe.N).DataAtom = atomBody then maybe else Node.Body.scan h atomBody n rest

/-- The method `Body`.  The constant `atom.Body` of the library
`golang.org/x/net/html/atom` is the argument `atomBody`.  The outer `none` is
running out of fuel; the inner `none` is the run-time failure of the index
expression `n.children()[0]` on an empty slice. -/
def Node.Body (n : Node) (atomBody : Nat) (h : Heap) (fuel : Nat) : Option (Option Node) :=
  if (h n.N).Typ ≠ NodeType.DocumentNode then some (some n)
  else
    match n.children h fuel with
    | none => none
    | some [] => some none
    | some (first :: _) =>
      match first.children h fuel with
      | none => none
      | some cs => some (some (Node.Body.scan h atomBody n cs))

/-- The inner loop of `ById`: some attribute has the key `id` and the value. -/
def Node.ById.hasId (id : String) : List Attribute → Bool
  | [] => false
  | a :: rest => if a.Key = "id" ∧ a.Val = id then true else Node.ById.hasId id rest

/-- The outer loop of `ById` over the children; `none` is the `nil` result. -/
def Node.ById.scan (h : Heap) (id : String) : List Node → Option Node
  | [] => none
  | sn :: rest => if Node.ById.hasId id (h sn.N).Attr then some sn else Node.ById.scan h id rest

/-- The method `ById`; the outer `none` is running out of fuel, the inner
`none` is the `nil` result. -/
def Node.ById (n : Node) (id : String) (h : Heap) (fuel : Nat) : Option (Option Node) :=
  (n.children h fuel).map (Node.ById.scan h id)

/-! ## Positional paths -/

/-- The first loop of `path`: count the nodes reached through `PrevSibling`. -/
def path.count (h : Heap) : Nat → Option Nat → Option Int
  | _, none => some 0
  | 0, some _ => none
  | fuel + 1, some a => (path.count h fuel (h a).PrevSibling).map (fun i => i + 1)

/-- The function `path`: the ipath to the node from its root parent. -/
def path (h : Heap) : Nat → Nat → Option ipath
  | 0, _ => none
  | fuel + 1, n =>
    match path.count h (fuel + 1) (h n).PrevSibling with
    | none => none
    | some i =>
      match (h n).Parent with
      | some p =>
        match path h fuel p with
        | none => none
        | some pp => some (pp ++ [i])
      | none => some []

/-- The inner loop of `ipath.get`: walk `NextSibling` until the index is zero. -/
def ipath.seek (h : Heap) : Nat → Option Nat → Int → Option (Option Nat)
  | _, none, _ => some none
  | 0, some _, _ => none
  | fuel + 1, some a, i =>
    if i = 0 then some (some a) else ipath.seek h fuel (h a).NextSibling (i - 1)

/-- The method `ipath.get`: traverse the node along the path; the inner `none`
is the `nil` result. -/
def ipath.get (h : Heap) (fuel : Nat) : ipath → Nat → Option (Option Nat)
  | [], n => some (some n)
  | i :: p, n =>
    match ipath.seek h fuel (h n).FirstChild i with
    | none => none
    | some none => some none
    | some (some next) => ipath.get h fuel p next

/-! ## The four edits -/

/-- The loop of `rmattr.Apply`: the index of the first attribute with the key,
or `-1`. -/
def rmattr.scan (r : rmattr) : List Attribute → Int → Int
  | [], _ => -1
  | v :: rest, i => if v.Key = r then i else rmattr.scan r rest (i + 1)

/-- The method `rmattr.Apply`. -/
def rmattr.Apply (r : rmattr) (h : Heap) (n : Nat) : Heap :=
  let bad := rmattr.scan r (h n).Attr 0
  if bad ≠ -1 then
    setAttr h n ((h n).Attr.take bad.toNat ++ (h n).Attr.drop (bad.toNat + 1))
  else h

/-- The loop of `setattr.Apply`: overwrite the first attribute with the key;
`none` when the loop ends without finding one. -/
def setattr.scan (s : setattr) : List Attribute → Option (List Attribute)
  | [] => none
  | a :: rest =>
    if a.Key ≠ s.Key then (setattr.scan s rest).map (fun l => a :: l)
    else some ({ a with Val := s.Val } :: rest)

/-- The method `setattr.Apply`. -/
def setattr.Apply (s : setattr) (h : Heap) (n : Nat) : Heap :=
  match setattr.scan s (h n).Attr with
  | some l => setAttr h n l
  | none => setAttr h n ((h n).Attr ++ [{ Namespace := "", Key := s.Key, Val := s.Val }])

/-- The tail of `insertNode.Apply` after its loop: link `x` before `next`. -/
def insertNode.before (h : Heap) (x next : Nat) : Heap :=
  let prev := (h next).PrevSibling
  let h1 := setPrevSibling h next (some x)
  let h2 := setNextSibling h1 x (some next)
  let h3 := setPrevSibling h2 x prev
  match prev with
  | some p => setNextSibling h3 p (some x)
  | none => h3

/-- The loop `for ins.i > 0` of `insertNode.Apply`, by recursion on `ins.i`. -/
def insertNode.walk (h : Heap) (x : Nat) : Nat → Nat → Heap
  | 0, next => insertNode.before h x next
  | k + 1, next =>
    match (h next).NextSibling with
    | none => setPrevSibling (setNextSibling h next (some x)) x (some next)
    | some nn => insertNode.walk h x k nn

/-- The method `insertNode.Apply`. -/
def insertNode.Apply (ins : insertNode) (h : Heap) (n : Nat) : Heap :=
  let h1 := setParent h ins.n (some n)
  let h2 := setNextSibling h1 ins.n none
  let h3 := setPrevSibling h2 ins.n none
  match (h3 n).FirstChild with
  | none => setLastChild (setFirstChild h3 n (some ins.n)) n (some ins.n)
  | some next => insertNode.walk h3 ins.n ins.i.toNat next

/-- The statement `if next.NextSibling != nil { next.NextSibling = next.PrevSibling }`. -/
def rmnode.relinkNext (h : Heap) (next : Nat) : Heap :=
  if (h next).NextSibling ≠ none then setNextSibling h next (h next).PrevSibling else h

/-- The statement
`if next.PrevSibling != nil { next.PrevSibling.NextSibling = next.NextSibling }`. -/
def rmnode.relinkPrev (h : Heap) (next : Nat) : Heap :=
  match (h next).PrevSibling with
  | some p => setNextSibling h p (h next).NextSibling
  | none => h

/-- The statement
`if next.Parent.FirstChild == next { next.Parent.FirstChild = next.NextSibling }`;
`none` is the `nil` dereference of `next.Parent`. -/
def rmnode.fixFirst (h : Heap) (next : Nat) : Option Heap :=
  match (h next).Parent with
  | none => none
  | some par =>
    some (if (h par).FirstChild = some next then setFirstChild h par (h next).NextSibling else h)

/-- The statement
`if next.Parent.LastChild == next { next.Parent.LastChild = next.PrevSibling }`;
`none` is the `nil` dereference of `next.Parent`. -/
def rmnode.fixLast (h : Heap) (next : Nat) : Option Heap :=
  match (h next).Parent with
  | none => none
  | some par =>
    some (if (h par).LastChild = some next then setLastChild h par (h next).PrevSibling else h)

/-- The statements `next.Parent = nil; next.NextSibling = nil; next.PrevSibling = nil`. -/
def rmnode.detach (h : Heap) (next : Nat) : Heap :=
  setPrevSibling (setNextSibling (setParent h next none) next none) next none

/-- The body of the loop of `rmnode.Apply` once the index has reached zero: its
five statements in the order of the source. -/
def rmnode.unlink (h : Heap) (next : Nat) : Option Heap :=
  match rmnode.fixFirst (rmnode.relinkPrev (rmnode.relinkNext h next) next) next with
  | none => none
  | some h3 =>
    match rmnode.fixLast h3 next with
    | none => none
    | some h4 => some (rmnode.detach h4 next)

/-- The loop of `rmnode.Apply`, by recursion on the remaining index. -/
def rmnode.walk (h : Heap) : Nat → Option Nat → Option Heap
  | _, none => some h
  | k + 1, some a => rmnode.walk h k (h a).NextSibling
  | 0, some a => rmnode.unlink h a

/-- The method `rmnode.Apply`. -/
def rmnode.Apply (r : rmnode) (h : Heap) (n : Nat) : Option Heap :=
  if r < 0 then some h else rmnode.walk h r.toNat (h n).FirstChild

/-! ## Recording operations of the handle -/

/-- The statement `n.Cl.Buffer = append(n.Cl.Buffer, c)`. -/
def World.record (w : World) (h : Heap) (cl : Nat) (c : Change) : World :=
  { heap := h, logs := Function.update w.logs cl { Buffer := (w.logs cl).Buffer ++ [c] } }

/-- The method `Node.setattr`. -/
def Node.setattr (n : Node) (k v : String) (fuel : Nat) (w : World) : Option World :=
  let c : Shortcircuit.setattr := { Key := k, Val := v }
  let h := setattr.Apply c w.heap n.N
  match path h fuel n.N with
  | none => none
  | some p => some (w.record h n.Cl { IPath := p, Setattr := some c })

/-- The method `Node.rmattr`. -/
def Node.rmattr (n : Node) (k : String) (fuel : Nat) (w : World) : Option World :=
  let c : Shortcircuit.rmattr := k
  let h := rmattr.Apply c w.heap n.N
  match path h fuel n.N with
  | none => none
  | some p => some (w.record h n.Cl { IPath := p, Rmattr := some c })

/-- The method `Node.Insert`. -/
def Node.Insert (n : Node) (o : Nat) (i : Int) (fuel : Nat) (w : World) : Option World :=
  let c : insertNode := { i := i, n := o }
  let h := insertNode.Apply c w.heap n.N
  match path h fuel n.N with
  | none => none
  | some p => some (w.record h n.Cl { IPath := p, InsertNode := some c })

/-- The method `Node.Rm`. -/
def Node.Rm (n : Node) (i : Int) (fuel : Nat) (w : World) : Option World :=
  let c : rmnode := i
  match rmnode.Apply c w.heap n.N with
  | none => none
  | some h =>
    match path h fuel n.N with
    | none => none
    | some p => some (w.record h n.Cl { IPath := p, Rmnode := some c })

/-- The flush step of the driver, `cl.Buffer = cl.Buffer[:0]`. -/
def World.flush (w : World) (cl : Nat) : World :=
  { w with logs := Function.update w.logs cl { Buffer := (w.logs cl).Buffer.take 0 } }

/-! ## Patch application -/

/-- The error value of `Change.apply`, `no node at path: <ipath>`. -/
structure ApplyError where
  noNodeAtPath : ipath
  deriving DecidableEq, Repr

/-- The method `Change.apply`: the memory afterwards and the returned error
(`none` is the `nil` error). -/
def Change.apply (c : Change) (h : Heap) (fuel : Nat) (n : Nat) :
    Option (Heap × Option ApplyError) :=
  match ipath.get h fuel c.IPath n with
  | none => none
  | some none => some (h, some { noNodeAtPath := c.IPath })
  | some (some target) =>
    match c.Rmattr, c.Setattr, c.InsertNode with
    | some r, _, _ => some (rmattr.Apply r h target, none)
    | none, some s, _ => some (setattr.Apply s h target, none)
    | none, none, some ins => some (insertNode.Apply ins h target, none)
    | none, none, none => some (h, none)

/-! ## Well-formed trees -/

/-- The nodes met from the pointer `p` by following the link `nxt` are exactly
the list `l`, and the link of the last one (or `p` itself) is `q`. -/
def Seg (nxt : Nat → Option Nat) : Option Nat → List Nat → Option Nat → Prop
  | p, [], q => p = q
  | p, a :: l, q => p = some a ∧ Seg nxt (nxt a) l q

/-- The link `NextSibling` as a function of the address. -/
def nextOf (h : Heap) (a : Nat) : Option Nat := (h a).NextSibling

/-- The link `PrevSibling` as a function of the address. -/
def prevOf (h : Heap) (a : Nat) : Option Nat := (h a).PrevSibling

/-- The child sequence of `n` by forward traversal from `FirstChild` is `cs`. -/
def ChildSeq (h : Heap) (n : Nat) (cs : List Nat) : Prop :=
  Seg (nextOf h) (h n).FirstChild cs none

/-- The node `n` and the list `cs` of its children are linked consistently:
`cs` is the forward chain from `FirstChild`, its reverse is the backward chain
from `LastChild`, and every member has `n` as its parent. -/
def Kids (h : Heap) (n : Nat) (cs : List Nat) : Prop :=
  ChildSeq h n cs ∧ Seg (prevOf h) (h n).LastChild cs.reverse none ∧
    ∀ c ∈ cs, (h c).Parent = some n

/-- A well-formed memory: every node has a consistently linked child list that
holds exactly the nodes naming it as parent, a node without parent has no
siblings, and parent links decrease a rank (no cycles). -/
structure WellFormed (h : Heap) : Prop where
  kids : ∀ n, ∃ cs, Kids h n cs ∧ ∀ c, (h c).Parent = some n → c ∈ cs
  roots : ∀ c, (h c).Parent = none → (h c).PrevSibling = none ∧ (h c).NextSibling = none
  acyclic : ∃ depth : Nat → Nat, ∀ c p, (h c).Parent = some p → depth p < depth c

/-- The node `r` is the nearest ancestor-or-self of `n` that has no parent. -/
inductive LocalRoot (h : Heap) : Nat → Nat → Prop where
  | self (n : Nat) : (h n).Parent = none → LocalRoot h n n
  | up (n p r : Nat) : (h n).Parent = some p → LocalRoot h p r → LocalRoot h n r

/-- The nodes `a` and `b` belong to the same tree. -/
def SameTree (h : Heap) (a b : Nat) : Prop :=
  ∃ r, LocalRoot h a r ∧ LocalRoot h b r

/-- A detached node: no parent and no siblings. -/
def Detached (h : Heap) (x : Nat) : Prop :=
  (h x).Parent = none ∧ (h x).PrevSibling = none ∧ (h x).NextSibling = none

/-- The path `p` cannot be resolved from the node `n`: at some depth the index
is negative or not below the number of children of the node reached so far. -/
inductive Unresolvable (h : Heap) : ipath → Nat → Prop where
  | stop (i : Int) (p : ipath) (n : Nat) (cs : List Nat) :
      ChildSeq h n cs → (i < 0 ∨ (cs.length : Int) ≤ i) → Unresolvable h (i :: p) n
  | deeper (i : Int) (p : ipath) (n : Nat) (cs : List Nat) (c : Nat) :
      ChildSeq h n cs → 0 ≤ i → cs[i.toNat]? = some c → Unresolvable h p c →
      Unresolvable h (i :: p) n

/-- The node `c` has an attribute pair with the key `id` and the value `v`. -/
def HasId (h : Heap) (v : String) (c : Nat) : Prop :=
  ∃ a ∈ (h c).Attr, a.Key = "id" ∧ a.Val = v

/-! ## Concrete memories -/

/-- A node record with every link `nil` and no attributes. -/
def blank : HtmlNode :=
  { Parent := none, FirstChild := none, LastChild := none, PrevSibling := none,
    NextSibling := none, Typ := NodeType.ElementNode, DataAtom := 0, Data := "",
    Namespace := "", Attr := [] }

/-- The memory holding the listed records at the addresses `0, 1, ...` and
blank nodes elsewhere. -/
def heapOf (l : List HtmlNode) : Heap := fun a => l.getD a blank

instance Seg.instDecidable (nxt : Nat → Option Nat) :
    (p : Option Nat) → (l : List Nat) → (q : Option Nat) → Decidable (Seg nxt p l q)
  | p, [], q => inferInstanceAs (Decidable (p = q))
  | p, a :: l, q =>
    @instDecidableAnd _ _ (inferInstanceAs (Decidable (p = some a)))
      (Seg.instDecidable nxt (nxt a) l q)

instance ChildSeq.instDecidable (h : Heap) (n : Nat) (cs : List Nat) :
    Decidable (ChildSeq h n cs) := by
  unfold ChildSeq
  infer_instance

instance Kids.instDecidable (h : Heap) (n : Nat) (cs : List Nat) : Decidable (Kids h n cs) := by
  unfold Kids ChildSeq
  infer_instance

/-- The checks that make a listed memory well formed, for a proposed table of
child lists and ranks: all decidable. -/
def heapOfOk (l : List HtmlNode) (kids : Nat → List Nat) (depth : Nat → Nat) : Prop :=
  (∀ n, n < l.length → Kids (heapOf l) n (kids n)) ∧
  (∀ c, c < l.length → ∀ n, n < l.length → (heapOf l c).Parent = some n → c ∈ kids n) ∧
  (∀ c, c < l.length → (heapOf l c).Parent = none →
    (heapOf l c).PrevSibling = none ∧ (heapOf l c).NextSibling = none) ∧
  (∀ c, c < l.length → ∀ p, p < l.length → (heapOf l c).Parent = some p → depth p < depth c) ∧
  (∀ c, c < l.length → ((heapOf l c).Parent.all fun p => decide (p < l.length)) = true)

instance heapOfOk.instDecidable (l : List HtmlNode) (kids : Nat → List Nat) (depth : Nat → Nat) :
    Decidable (heapOfOk l kids depth) := by
  unfold heapOfOk
  exact @instDecidableAnd _ _ (by infer_instance) (@instDecidableAnd _ _ (by infer_instance)
    (@instDecidableAnd _ _ (by infer_instance) (@instDecidableAnd _ _ (by infer_instance)
      (by infer_instance))))

/-- A sample memory: the root `0` has the children `1` and `2`, the node `1` has
the only child `3`, and the node `4` is detached. -/
def sampleHeap : Heap :=
  heapOf [
    { blank with FirstChild := some 1, LastChild := some 2, Typ := NodeType.DocumentNode },
    { blank with Parent := some 0, NextSibling := some 2, FirstChild := some 3,
                 LastChild := some 3, Data := "div",
                 Attr := [{ Namespace := "", Key := "id", Val := "counter" }] },
    { blank with Parent := some 0, PrevSibling := some 1, Data := "p" },
    { blank with Parent := some 1, Typ := NodeType.TextNode, Data := "0" },
    { blank with Typ := NodeType.TextNode, Data := "1" }]

/-- The child lists of `sampleHeap`. -/
def sampleKids : Nat → List Nat
  | 0 => [1, 2]
  | 1 => [3]
  | _ => []

/-- The ranks of the nodes of `sampleHeap`. -/
def sampleDepth : Nat → Nat
  | 0 => 0
  | 1 => 1
  | 2 => 1
  | 3 => 2
  | _ => 0

/-! ## Auxiliary relations -/

/-- The node `a` is `n` or one of its ancestors. -/
inductive Anc (h : Heap) : Nat → Nat → Prop where
  | refl (n : Nat) : Anc h n n
  | up (a n p : Nat) : (h n).Parent = some p → Anc h a p → Anc h a n

/-- The memories agree on the parent and previous-sibling links. -/
def SameUp (h h2 : Heap) : Prop :=
  ∀ m, (h2 m).Parent = (h m).Parent ∧ (h2 m).PrevSibling = (h m).PrevSibling

/-! ## Sequences of invocations -/

/-- One invocation of a mutation operation of the handle, with its arguments. -/
inductive Mutation where
  | setattr (k v : String)
  | rmattr (k : String)
  | Insert (o : Nat) (i : Int)
  | Rm (i : Int)
  deriving DecidableEq, Repr

/-- Perform the invocation on the handle `n`. -/
def Mutation.invoke (n : Node) : Mutation → Nat → World → Option World
  | Mutation.setattr k v, fuel, w => Node.setattr n k v fuel w
  | Mutation.rmattr k, fuel, w => Node.rmattr n k fuel w
  | Mutation.Insert o i, fuel, w => Node.Insert n o i fuel w
  | Mutation.Rm i, fuel, w => Node.Rm n i fuel w

/-- The patch record of the invocation, given the path of its target. -/
def Mutation.record : Mutation → ipath → Change
  | Mutation.setattr k v, p => { IPath := p, Setattr := some { Key := k, Val := v } }
  | Mutation.rmattr k, p => { IPath := p, Rmattr := some k }
  | Mutation.Insert o i, p => { IPath := p, InsertNode := some { i := i, n := o } }
  | Mutation.Rm i, p => { IPath := p, Rmnode := some i }

/-- Perform the invocations one after the other; the result lists the state
after each of them. -/
def invokeAll (fuel : Nat) : List (Node × Mutation) → World → Option (List World)
  | [], _ => some []
  | c :: rest, w =>
    match c.2.invoke c.1 fuel w with
    | none => none
    | some w1 => (invokeAll fuel rest w1).map (fun ws => w1 :: ws)

/-! ## Examples -/

/-- The state of the examples: `sampleHeap` and empty changelogs. -/
def sampleWorld : World :=
  { heap := sampleHeap, logs := fun _ => { Buffer := [] } }

/-- Two structurally identical trees in one memory: the root `0` with the only
child `1` (tree A) and the root `2` with the only child `3` (tree B). -/
def twinHeap : Heap :=
  heapOf [
    { blank with FirstChild := some 1, LastChild := some 1, Data := "div" },
    { blank with Parent := some 0, Typ := NodeType.TextNode, Data := "0" },
    { blank with FirstChild := some 3, LastChild := some 3, Data := "div" },
    { blank with Parent := some 2, Typ := NodeType.TextNode, Data := "0" }]

/-- The state of the replay example: `twinHeap` and empty changelogs. -/
def twinWorld : World :=
  { heap := twinHeap, logs := fun _ => { Buffer := [] } }

/-- The invocations of the accounting example, all on the handle of node `1`. -/
def sampleCalls : List (Node × Mutation) :=
  [({ N := 1, Cl := 0 }, Mutation.setattr "class" "big"),
   ({ N := 1, Cl := 0 }, Mutation.rmattr "style"),
   ({ N := 1, Cl := 0 }, Mutation.Rm 0),
   ({ N := 1, Cl := 0 }, Mutation.Insert 4 0)]

/-- A document node without any child. -/
def emptyDocHeap : Heap :=
  heapOf [{ blank with Typ := NodeType.DocumentNode }]

/-- A parsed page with a doctype: the document `0` has the children `1`
(doctype) and `2` (html); the html element has the children `3` (head) and `4`
(body); the body has the child `5` with the attribute `id="counter"`.  The
argument is the value of `atom.Body`; the other elements carry other atoms. -/
def doctypeDocHeap (atomBody : Nat) : Heap :=
  heapOf [
    { blank with FirstChild := some 1, LastChild := some 2, Typ := NodeType.DocumentNode },
    { blank with Parent := some 0, NextSibling := some 2, Typ := NodeType.DoctypeNode,
                 Data := "html" },
    { blank with Parent := some 0, PrevSibling := some 1, FirstChild := some 3,
                 LastChild := some 4, DataAtom := atomBody + 1, Data := "html" },
    { blank with Parent := some 2, NextSibling := some 4, DataAtom := atomBody + 2,
                 Data := "head" },
    { blank with Parent := some 2, PrevSibling := some 3, FirstChild := some 5,
                 LastChild := some 5, DataAtom := atomBody, Data := "body" },
    { blank with Parent := some 4, DataAtom := atomBody + 3, Data := "div",
                 Attr := [{ Namespace := "", Key := "id", Val := "counter" }] }]

/-! ## Chains of links -/

theorem Seg_append (nxt : Nat → Option Nat) (l1 l2 : List Nat) (p q : Option Nat) :
    Seg nxt p (l1 ++ l2) q ↔ ∃ m, Seg nxt p l1 m ∧ Seg nxt m l2 q := by
  induction l1 generalizing p with
  | nil =>
    constructor
    · intro hs
      exact ⟨p, rfl, hs⟩
    · rintro ⟨m, hm, hs⟩
      have : p = m := hm
      subst this
      exact hs
  | cons a l ih =>
    constructor
    · rintro ⟨hp, hs⟩
      obtain ⟨m, h1, h2⟩ := (ih (nxt a)).1 hs
      exact ⟨m, ⟨hp, h1⟩, h2⟩
    · rintro ⟨m, ⟨hp, h1⟩, h2⟩
      exact ⟨hp, (ih (nxt a)).2 ⟨m, h1, h2⟩⟩

theorem Seg_unique (nxt : Nat → Option Nat) (l l2 : List Nat) (p : Option Nat)
    (h1 : Seg nxt p l none) (h2 : Seg nxt p l2 none) : l = l2 := by
  induction l generalizing p l2 with
  | nil =>
    cases l2 with
    | nil => rfl
    | cons b l2 =>
      have e1 : p = none := h1
      have e2 : p = some b := h2.1
      rw [e1] at e2
      cases e2
  | cons a l ih =>
    cases l2 with
    | nil =>
      have e1 : p = none := h2
      have e2 : p = some a := h1.1
      rw [e1] at e2
      cases e2
    | cons b l2 =>
      have e1 : p = some a := h1.1
      have e2 : p = some b := h2.1
      rw [e1] at e2
      cases e2
      rw [ih l2 (nxt a) h1.2 h2.2]

theorem Seg_nodup (nxt : Nat → Option Nat) (l : List Nat) (p : Option Nat)
    (h1 : Seg nxt p l none) : l.Nodup := by
  induction l generalizing p with
  | nil => exact List.nodup_nil
  | cons a l ih =>
    refine List.nodup_cons.2 ⟨?_, ih (nxt a) h1.2⟩
    intro hmem
    obtain ⟨s, t, hst⟩ := List.append_of_mem hmem
    have h2 : Seg nxt (nxt a) (s ++ a :: t) none := hst ▸ h1.2
    obtain ⟨m, _, h3⟩ := (Seg_append nxt s (a :: t) (nxt a) none).1 h2
    have h4 : Seg nxt (nxt a) t none := h3.2
    have e := Seg_unique nxt _ _ _ h2 h4
    have hl := congrArg List.length e
    simp at hl
    omega

theorem Seg_congr (nxt nxt2 : Nat → Option Nat) (l : List Nat) (p q : Option Nat)
    (hag : ∀ a ∈ l, nxt2 a = nxt a) (h1 : Seg nxt p l q) : Seg nxt2 p l q := by
  induction l generalizing p with
  | nil => exact h1
  | cons a l ih =>
    refine ⟨h1.1, ?_⟩
    rw [hag a (List.mem_cons_self a l)]
    exact ih (nxt a) (fun b hb => hag b (List.mem_cons_of_mem a hb)) h1.2

theorem childrenFrom_of_seg (h : Heap) (cl : Nat) (l : List Nat) (p : Option Nat)
    (fuel : Nat) (h1 : Seg (nextOf h) p l none) (hf : l.length ≤ fuel) :
    Node.childrenFrom h cl fuel p = some (l.map (fun a => { N := a, Cl := cl })) := by
  induction l generalizing p fuel with
  | nil =>
    have e : p = none := h1
    subst e
    cases fuel <;> rfl
  | cons a l ih =>
    have e : p = some a := h1.1
    subst e
    cases fuel with
    | zero => simp at hf
    | succ f =>
      have hf2 : l.length ≤ f := by simpa using hf
      simp only [Node.childrenFrom, List.map_cons]
      have := ih (nextOf h a) f h1.2 hf2
      unfold nextOf at this
      rw [this]
      rfl

theorem count_of_seg (h : Heap) (l : List Nat) (p : Option Nat) (fuel : Nat)
    (h1 : Seg (prevOf h) p l none) (hf : l.length ≤ fuel) :
    path.count h fuel p = some (l.length : Int) := by
  induction l generalizing p fuel with
  | nil =>
    have e : p = none := h1
    subst e
    cases fuel <;> rfl
  | cons a l ih =>
    have e : p = some a := h1.1
    subst e
    cases fuel with
    | zero => simp at hf
    | succ f =>
      have hf2 : l.length ≤ f := by simpa using hf
      simp only [path.count]
      have := ih (prevOf h a) f h1.2 hf2
      unfold prevOf at this
      rw [this]
      simp

theorem seek_of_seg (h : Heap) (l1 l2 : List Nat) (c : Nat) (p q : Option Nat) (fuel : Nat)
    (h1 : Seg (nextOf h) p (l1 ++ c :: l2) q) (hf : l1.length < fuel) :
    ipath.seek h fuel p (l1.length : Int) = some (some c) := by
  induction l1 generalizing p fuel with
  | nil =>
    have e : p = some c := h1.1
    subst e
    cases fuel with
    | zero => simp at hf
    | succ f => simp [ipath.seek]
  | cons a l ih =>
    have e : p = some a := h1.1
    subst e
    cases fuel with
    | zero => simp at hf
    | succ f =>
      have hf2 : l.length < f := by simpa using hf
      have := ih (nextOf h a) f h1.2 hf2
      unfold nextOf at this
      simp only [ipath.seek, List.length_cons]
      rw [if_neg (by push_cast; omega)]
      rw [← this]
      congr 1
      push_cast
      omega

/-! ## Path round trip -/

theorem get_append (h : Heap) (fuel : Nat) (p : ipath) (i : Int) (r m : Nat)
    (h1 : ipath.get h fuel p r = some (some m)) :
    ipath.get h fuel (p ++ [i]) r = ipath.get h fuel [i] m := by
  induction p generalizing r with
  | nil =>
    simp only [ipath.get] at h1
    cases h1
    rfl
  | cons j p ih =>
    simp only [ipath.get, List.cons_append] at h1 ⊢
    cases hs : ipath.seek h fuel (h r).FirstChild j with
    | none => rw [hs] at h1; cases h1
    | some o =>
      cases o with
      | none => rw [hs] at h1; cases h1
      | some nx =>
        rw [hs] at h1
        exact ih nx h1

theorem Kids_split (h : Heap) (n c : Nat) (cs : List Nat) (hk : Kids h n cs) (hc : c ∈ cs) :
    ∃ l1 l2, cs = l1 ++ c :: l2 ∧ Seg (prevOf h) (h c).PrevSibling l1.reverse none ∧
      Seg (nextOf h) (h c).NextSibling l2 none := by
  obtain ⟨l1, l2, e⟩ := List.append_of_mem hc
  refine ⟨l1, l2, e, ?_, ?_⟩
  · have hb := hk.2.1
    rw [e, List.reverse_append, List.reverse_cons, List.append_assoc] at hb
    obtain ⟨m, _, h2⟩ := (Seg_append _ _ _ _ _).1 hb
    exact h2.2
  · have hf : Seg (nextOf h) (h n).FirstChild cs none := hk.1
    rw [e] at hf
    obtain ⟨m, _, h2⟩ := (Seg_append _ _ _ _ _).1 hf
    exact h2.2

theorem path_get_aux (h : Heap) (wf : WellFormed h) (N R : Nat) (hr : LocalRoot h N R) :
    ∃ F p, ∀ fuel, F ≤ fuel →
      path h fuel N = some p ∧ ipath.get h fuel p R = some (some N) := by
  induction hr with
  | self n hp =>
    refine ⟨1, [], ?_⟩
    intro fuel hf
    obtain ⟨f, rfl⟩ : ∃ f, fuel = f + 1 := ⟨fuel - 1, by omega⟩
    have hprev := (wf.roots n hp).1
    simp [path, hprev, hp, path.count, ipath.get]
  | up n p r hp _ ih =>
    obtain ⟨F, pp, hpp⟩ := ih
    obtain ⟨cs, hk, hall⟩ := wf.kids p
    obtain ⟨l1, l2, e, hback, _⟩ := Kids_split h p n cs hk (hall n hp)
    refine ⟨F + l1.length + 2, pp ++ [(l1.length : Int)], ?_⟩
    intro fuel hf
    obtain ⟨f, rfl⟩ : ∃ f, fuel = f + 1 := ⟨fuel - 1, by omega⟩
    have hc := count_of_seg h l1.reverse (h n).PrevSibling (f + 1) hback (by simp; omega)
    have h1 := (hpp f (by omega)).1
    have h2 := (hpp (f + 1) (by omega)).2
    constructor
    · simp [path, hc, hp, h1]
    · rw [get_append h (f + 1) pp _ r p h2]
      have hf2 : Seg (nextOf h) (h p).FirstChild (l1 ++ n :: l2) none := e ▸ hk.1
      have hs := seek_of_seg h l1 l2 n _ none (f + 1) hf2 (by omega)
      simp [ipath.get, hs]

/-! ## Reading a field after an assignment -/

@[simp]
theorem setParent_Parent (h : Heap) (a : Nat) (v : Option Nat) (b : Nat) :
    (setParent h a v b).Parent = if b = a then v else (h b).Parent := by
  unfold setParent
  rw [Function.update_apply]
  split <;> simp_all

@[simp]
theorem setParent_FirstChild (h : Heap) (a : Nat) (v : Option Nat) (b : Nat) :
    (setParent h a v b).FirstChild = (h b).FirstChild := by
  unfold setParent
  rw [Function.update_apply]
  split <;> simp_all

@[simp]
theorem setParent_LastChild (h : Heap) (a : Nat) (v : Option Nat) (b : Nat) :
    (setParent h a v b).LastChild = (h b).LastChild := by
  unfold setParent
  rw [Function.update_apply]
  split <;> simp_all

@[simp]
theorem setParent_PrevSibling (h : Heap) (a : Nat) (v : Option Nat) (b : Nat) :
    (setParent h a v b).PrevSibling = (h b).PrevSibling := by
  unfold setParent
  rw [Function.update_apply]
  split <;> simp_all

@[simp]
theorem setParent_NextSibling (h : Heap) (a : Nat) (v : Option Nat) (b : Nat) :
    (setParent h a v b).NextSibling = (h b).NextSibling := by
  unfold setParent
  rw [Function.update_apply]
  split <;> simp_all

@[simp]
theorem setParent_Attr (h : Heap) (a : Nat) (v : Option Nat) (b : Nat) :
    (setParent h a v b).Attr = (h b).Attr := by
  unfold setParent
  rw [Function.update_apply]
  split <;> simp_all

@[simp]
theorem setParent_Typ (h : Heap) (a : Nat) (v : Option Nat) (b : Nat) :
    (setParent h a v b).Typ = (h b).Typ := by
  unfold setParent
  rw [Function.update_apply]
  split <;> simp_all

@[simp]
theorem setParent_DataAtom (h : Heap) (a : Nat) (v : Option Nat) (b : Nat) :
    (setParent h a v b).DataAtom = (h b).DataAtom := by
  unfold setParent
  rw [Function.update_apply]
  split <;> simp_all

@[simp]
theorem setParent_Data (h : Heap) (a : Nat) (v : Option Nat) (b : Nat) :
    (setParent h a v b).Data = (h b).Data := by
  unfold setParent
  rw [Function.update_apply]
  split <;> simp_all

@[simp]
theorem setFirstChild_Parent (h : Heap) (a : Nat) (v : Option Nat) (b : Nat) :
    (setFirstChild h a v b).Parent = (h b).Parent := by
  unfold setFirstChild
  rw [Function.update_apply]
  split <;> simp_all

@[simp]
theorem setFirstChild_FirstChild (h : Heap) (a : Nat) (v : Option Nat) (b : Nat) :
    (setFirstChild h a v b).FirstChild = if b = a then v else (h b).FirstChild := by
  unfold setFirstChild
  rw [Function.update_apply]
  split <;> simp_all

@[simp]
theorem setFirstChild_LastChild (h : Heap) (a : Nat) (v : Option Nat) (b : Nat) :
    (setFirstChild h a v b).LastChild = (h b).LastChild := by
  unfold setFirstChild
  rw [Function.update_apply]
  split <;> simp_all

@[simp]
theorem setFirstChild_PrevSibling (h : Heap) (a : Nat) (v : Option Nat) (b : Nat) :
    (setFirstChild h a v b).PrevSibling = (h b).PrevSibling := by
  unfold setFirstChild
  rw [Function.update_apply]
  split <;> simp_all

@[simp]
theorem setFirstChild_NextSibling (h : Heap) (a : Nat) (v : Option Nat) (b : Nat) :
    (setFirstChild h a v b).NextSibling = (h b).NextSibling := by
  unfold setFirstChild
  rw [Function.update_apply]
  split <;> simp_all

@[simp]
theorem setFirstChild_Attr (h : Heap) (a : Nat) (v : Option Nat) (b : Nat) :
    (setFirstChild h a v b).Attr = (h b).Attr := by
  unfold setFirstChild
  rw [Function.update_apply]
  split <;> simp_all

@[simp]
theorem setFirstChild_Typ (h : Heap) (a : Nat) (v : Option Nat) (b : Nat) :
    (setFirstChild h a v b).Typ = (h b).Typ := by
  unfold setFirstChild
  rw [Function.update_apply]
  split <;> simp_all

@[simp]
theorem setFirstChild_DataAtom (h : Heap) (a : Nat) (v : Option Nat) (b : Nat) :
    (setFirstChild h a v b).DataAtom = (h b).DataAtom := by
  unfold setFirstChild
  rw [Function.update_apply]
  split <;> simp_all

@[simp]
theorem setFirstChild_Data (h : Heap) (a : Nat) (v : Option Nat) (b : Nat) :
    (setFirstChild h a v b).Data = (h b).Data := by
  unfold setFirstChild
  rw [Function.update_apply]
  split <;> simp_all

@[simp]
theorem setLastChild_Parent (h : Heap) (a : Nat) (v : Option Nat) (b : Nat) :
    (setLastChild h a v b).Parent = (h b).Parent := by
  unfold setLastChild
  rw [Function.update_apply]
  split <;> simp_all

@[simp]
theorem setLastChild_FirstChild (h : Heap) (a : Nat) (v : Option Nat) (b : Nat) :
    (setLastChild h a v b).FirstChild = (h b).FirstChild := by
  unfold setLastChild
  rw [Function.update_apply]
  split <;> simp_all

@[simp]
theorem setLastChild_LastChild (h : Heap) (a : Nat) (v : Option Nat) (b : Nat) :
    (setLastChild h a v b).LastChild = if b = a then v else (h b).LastChild := by
  unfold setLastChild
  rw [Function.update_apply]
  split <;> simp_all

@[simp]
theorem setLastChild_PrevSibling (h : Heap) (a : Nat) (v : Option Nat) (b : Nat) :
    (setLastChild h a v b).PrevSibling = (h b).PrevSibling := by
  unfold setLastChild
  rw [Function.update_apply]
  split <;> simp_all

@[simp]
theorem setLastChild_NextSibling (h : Heap) (a : Nat) (v : Option Nat) (b : Nat) :
    (setLastChild h a v b).NextSibling = (h b).NextSibling := by
  unfold setLastChild
  rw [Function.update_apply]
  split <;> simp_all

@[simp]
theorem setLastChild_Attr (h : Heap) (a : Nat) (v : Option Nat) (b : Nat) :
    (setLastChild h a v b).Attr = (h b).Attr := by
  unfold setLastChild
  rw [Function.update_apply]
  split <;> simp_all

@[simp]
theorem setLastChild_Typ (h : Heap) (a : Nat) (v : Option Nat) (b : Nat) :
    (setLastChild h a v b).Typ = (h b).Typ := by
  unfold setLastChild
  rw [Function.update_apply]
  split <;> simp_all

@[simp]
theorem setLastChild_DataAtom (h : Heap) (a : Nat) (v : Option Nat) (b : Nat) :
    (setLastChild h a v b).DataAtom = (h b).DataAtom := by
  unfold setLastChild
  rw [Function.update_apply]
  split <;> simp_all

@[simp]
theorem setLastChild_Data (h : Heap) (a : Nat) (v : Option Nat) (b : Nat) :
    (setLastChild h a v b).Data = (h b).Data := by
  unfold setLastChild
  rw [Function.update_apply]
  split <;> simp_all

@[simp]
theorem setPrevSibling_Parent (h : Heap) (a : Nat) (v : Option Nat) (b : Nat) :
    (setPrevSibling h a v b).Parent = (h b).Parent := by
  unfold setPrevSibling
  rw [Function.update_apply]
  split <;> simp_all

@[simp]
theorem setPrevSibling_FirstChild (h : Heap) (a : Nat) (v : Option Nat) (b : Nat) :
    (setPrevSibling h a v b).FirstChild = (h b).FirstChild := by
  unfold setPrevSibling
  rw [Function.update_apply]
  split <;> simp_all

@[simp]
theorem setPrevSibling_LastChild (h : Heap) (a : Nat) (v : Option Nat) (b : Nat) :
    (setPrevSibling h a v b).LastChild = (h b).LastChild := by
  unfold setPrevSibling
  rw [Function.update_apply]
  split <;> simp_all

@[simp]
theorem setPrevSibling_PrevSibling (h : Heap) (a : Nat) (v : Option Nat) (b : Nat) :
    (setPrevSibling h a v b).PrevSibling = if b = a then v else (h b).PrevSibling := by
  unfold setPrevSibling
  rw [Function.update_apply]
  split <;> simp_all

@[simp]
theorem setPrevSibling_NextSibling (h : Heap) (a : Nat) (v : Option Nat) (b : Nat) :
    (setPrevSibling h a v b).NextSibling = (h b).NextSibling := by
  unfold setPrevSibling
  rw [Function.update_apply]
  split <;> simp_all

@[simp]
theorem setPrevSibling_Attr (h : Heap) (a : Nat) (v : Option Nat) (b : Nat) :
    (setPrevSibling h a v b).Attr = (h b).Attr := by
  unfold setPrevSibling
  rw [Function.update_apply]
  split <;> simp_all

@[simp]
theorem setPrevSibling_Typ (h : Heap) (a : Nat) (v : Option Nat) (b : Nat) :
    (setPrevSibling h a v b).Typ = (h b).Typ := by
  unfold setPrevSibling
  rw [Function.update_apply]
  split <;> simp_all

@[simp]
theorem setPrevSibling_DataAtom (h : Heap) (a : Nat) (v : Option Nat) (b : Nat) :
    (setPrevSibling h a v b).DataAtom = (h b).DataAtom := by
  unfold setPrevSibling
  rw [Function.update_apply]
  split <;> simp_all

@[simp]
theorem setPrevSibling_Data (h : Heap) (a : Nat) (v : Option Nat) (b : Nat) :
    (setPrevSibling h a v b).Data = (h b).Data := by
  unfold setPrevSibling
  rw [Function.update_apply]
  split <;> simp_all

@[simp]
theorem setNextSibling_Parent (h : Heap) (a : Nat) (v : Option Nat) (b : Nat) :
    (setNextSibling h a v b).Parent = (h b).Parent := by
  unfold setNextSibling
  rw [Function.update_apply]
  split <;> simp_all

@[simp]
theorem setNextSibling_FirstChild (h : Heap) (a : Nat) (v : Option Nat) (b : Nat) :
    (setNextSibling h a v b).FirstChild = (h b).FirstChild := by
  unfold setNextSibling
  rw [Function.update_apply]
  split <;> simp_all

@[simp]
theorem setNextSibling_LastChild (h : Heap) (a : Nat) (v : Option Nat) (b : Nat) :
    (setNextSibling h a v b).LastChild = (h b).LastChild := by
  unfold setNextSibling
  rw [Function.update_apply]
  split <;> simp_all

@[simp]
theorem setNextSibling_PrevSibling (h : Heap) (a : Nat) (v : Option Nat) (b : Nat) :
    (setNextSibling h a v b).PrevSibling = (h b).PrevSibling := by
  unfold setNextSibling
  rw [Function.update_apply]
  split <;> simp_all

@[simp]
theorem setNextSibling_NextSibling (h : Heap) (a : Nat) (v : Option Nat) (b : Nat) :
    (setNextSibling h a v b).NextSibling = if b = a then v else (h b).NextSibling := by
  unfold setNextSibling
  rw [Function.update_apply]
  split <;> simp_all

@[simp]
theorem setNextSibling_Attr (h : Heap) (a : Nat) (v : Option Nat) (b : Nat) :
    (setNextSibling h a v b).Attr = (h b).Attr := by
  unfold setNextSibling
  rw [Function.update_apply]
  split <;> simp_all

@[simp]
theorem setNextSibling_Typ (h : Heap) (a : Nat) (v : Option Nat) (b : Nat) :
    (setNextSibling h a v b).Typ = (h b).Typ := by
  unfold setNextSibling
  rw [Function.update_apply]
  split <;> simp_all

@[simp]
theorem setNextSibling_DataAtom (h : Heap) (a : Nat) (v : Option Nat) (b : Nat) :
    (setNextSibling h a v b).DataAtom = (h b).DataAtom := by
  unfold setNextSibling
  rw [Function.update_apply]
  split <;> simp_all

@[simp]
theorem setNextSibling_Data (h : Heap) (a : Nat) (v : Option Nat) (b : Nat) :
    (setNextSibling h a v b).Data = (h b).Data := by
  unfold setNextSibling
  rw [Function.update_apply]
  split <;> simp_all

@[simp]
theorem setAttr_Parent (h : Heap) (a : Nat) (v : List Attribute) (b : Nat) :
    (setAttr h a v b).Parent = (h b).Parent := by
  unfold setAttr
  rw [Function.update_apply]
  split <;> simp_all

@[simp]
theorem setAttr_FirstChild (h : Heap) (a : Nat) (v : List Attribute) (b : Nat) :
    (setAttr h a v b).FirstChild = (h b).FirstChild := by
  unfold setAttr
  rw [Function.update_apply]
  split <;> simp_all

@[simp]
theorem setAttr_LastChild (h : Heap) (a : Nat) (v : List Attribute) (b : Nat) :
    (setAttr h a v b).LastChild = (h b).LastChild := by
  unfold setAttr
  rw [Function.update_apply]
  split <;> simp_all

@[simp]
theorem setAttr_PrevSibling (h : Heap) (a : Nat) (v : List Attribute) (b : Nat) :
    (setAttr h a v b).PrevSibling = (h b).PrevSibling := by
  unfold setAttr
  rw [Function.update_apply]
  split <;> simp_all

@[simp]
theorem setAttr_NextSibling (h : Heap) (a : Nat) (v : List Attribute) (b : Nat) :
    (setAttr h a v b).NextSibling = (h b).NextSibling := by
  unfold setAttr
  rw [Function.update_apply]
  split <;> simp_all

@[simp]
theorem setAttr_Attr (h : Heap) (a : Nat) (v : List Attribute) (b : Nat) :
    (setAttr h a v b).Attr = if b = a then v else (h b).Attr := by
  unfold setAttr
  rw [Function.update_apply]
  split <;> simp_all

@[simp]
theorem setAttr_Typ (h : Heap) (a : Nat) (v : List Attribute) (b : Nat) :
    (setAttr h a v b).Typ = (h b).Typ := by
  unfold setAttr
  rw [Function.update_apply]
  split <;> simp_all

@[simp]
theorem setAttr_DataAtom (h : Heap) (a : Nat) (v : List Attribute) (b : Nat) :
    (setAttr h a v b).DataAtom = (h b).DataAtom := by
  unfold setAttr
  rw [Function.update_apply]
  split <;> simp_all

@[simp]
theorem setAttr_Data (h : Heap) (a : Nat) (v : List Attribute) (b : Nat) :
    (setAttr h a v b).Data = (h b).Data := by
  unfold setAttr
  rw [Function.update_apply]
  split <;> simp_all

/-! ## Removing a child: indexes outside the child list -/

theorem rmnode_walk_beyond (h : Heap) (l : List Nat) (p : Option Nat) (k : Nat)
    (hs : Seg (nextOf h) p l none) (hk : l.length ≤ k) : rmnode.walk h k p = some h := by
  induction l generalizing p k with
  | nil =>
    have e : p = none := hs
    subst e
    cases k <;> rfl
  | cons a l ih =>
    have e : p = some a := hs.1
    subst e
    cases k with
    | zero => simp at hk
    | succ k =>
      simp only [rmnode.walk]
      exact ih _ k hs.2 (by simpa using hk)

theorem rmnode_Apply_out_of_range (h : Heap) (n : Nat) (cs : List Nat) (i : Int)
    (hcs : ChildSeq h n cs) (hi : i < 0 ∨ (cs.length : Int) ≤ i) :
    rmnode.Apply i h n = some h := by
  unfold rmnode.Apply
  by_cases hneg : i < 0
  · rw [if_pos hneg]
  · rw [if_neg hneg]
    refine rmnode_walk_beyond h cs _ _ hcs ?_
    omega

/-! ## Inserting a child after the first position -/

theorem Seg_last_link (nxt : Nat → Option Nat) (l : List Nat) (c : Nat) (p q : Option Nat)
    (h1 : Seg nxt p (l ++ [c]) q) : nxt c = q := by
  obtain ⟨m, _, h2⟩ := (Seg_append nxt l [c] p q).1 h1
  exact h2.2

theorem insert_walk_chain (g : Heap) (x : Nat) (F L : Option Nat) (k : Nat) (l1 : List Nat)
    (c : Nat) (l2 : List Nat)
    (hF : Seg (nextOf g) F (l1 ++ c :: l2) none)
    (hB : Seg (prevOf g) L (l1 ++ c :: l2).reverse none)
    (hx : x ∉ l1 ++ c :: l2) (hxn : (g x).NextSibling = none)
    (hk : k = 0 → l1 ≠ []) :
    Seg (nextOf (insertNode.walk g x k c)) F
      (l1 ++ ((c :: l2).take k ++ x :: (c :: l2).drop k)) none := by
  have hnd := Seg_nodup _ _ _ hF
  induction k generalizing l1 c l2 with
  | zero =>
    obtain ⟨l0, e, rfl⟩ : ∃ l0 e, l1 = l0 ++ [e] := by
      rcases List.eq_nil_or_concat l1 with h0 | ⟨l0, e, h0⟩
      · exact absurd h0 (hk rfl)
      · exact ⟨l0, e, by simpa using h0⟩
    have hprev : (g c).PrevSibling = some e := by
      rw [List.reverse_append, List.reverse_cons, List.reverse_append] at hB
      simp only [List.reverse_cons, List.reverse_nil, List.nil_append, List.singleton_append,
        List.append_assoc] at hB
      obtain ⟨m, _, h2⟩ := (Seg_append _ _ _ _ _).1 hB
      exact h2.2.1
    simp only [List.mem_append, List.mem_cons, List.mem_singleton, not_or, List.not_mem_nil,
      or_false] at hx
    obtain ⟨⟨hx0, hxe⟩, hxc, hx2⟩ := hx
    rw [List.append_assoc] at hnd hF
    have hnd2 := List.nodup_append.1 hnd
    have hnd3 := List.nodup_cons.1 hnd2.2.1
    have hnd4 := List.nodup_cons.1 hnd3.2
    obtain ⟨m, hs1, hs2⟩ := (Seg_append _ _ _ _ _).1 hF
    have hnext : ∀ a, nextOf (insertNode.before g x c) a =
        if a = e then some x else if a = x then some c else nextOf g a := by
      intro a
      simp only [insertNode.before, hprev, nextOf]
      simp
    simp only [insertNode.walk, List.take_zero, List.drop_zero, List.nil_append, List.append_assoc]
    refine (Seg_append _ _ _ _ _).2 ⟨m, ?_, ?_⟩
    · refine Seg_congr _ _ _ _ _ ?_ hs1
      intro a ha
      rw [hnext]
      have h1 : a ≠ e := fun hae => hnd2.2.2 ha (by simp [hae])
      have h2 : a ≠ x := fun hax => hx0 (hax ▸ ha)
      simp [h1, h2]
    · refine ⟨hs2.1, ?_⟩
      rw [hnext, if_pos rfl]
      refine ⟨rfl, ?_⟩
      rw [hnext, if_neg hxe, if_pos rfl]
      refine ⟨rfl, ?_⟩
      rw [hnext, if_neg (fun hce => hnd3.1 (by simp [hce])), if_neg (Ne.symm hxc)]
      refine Seg_congr _ _ _ _ _ ?_ hs2.2.2
      intro a ha
      rw [hnext]
      have h1 : a ≠ e := fun hae => hnd3.1 (by simp [← hae, ha])
      have h2 : a ≠ x := fun hax => hx2 (hax ▸ ha)
      simp [h1, h2]
  | succ k ih =>
    obtain ⟨m, hs1, hs2⟩ := (Seg_append _ _ _ _ _).1 hF
    simp only [List.mem_append, List.mem_cons, not_or] at hx
    obtain ⟨hx1, hxc, hx2⟩ := hx
    have hnd2 := List.nodup_append.1 hnd
    have hnd3 := List.nodup_cons.1 hnd2.2.1
    cases hcn : (g c).NextSibling with
    | none =>
      have hl2 : l2 = [] := by
        cases l2 with
        | nil => rfl
        | cons d l2 =>
          have := hs2.2.1
          unfold nextOf at this
          rw [hcn] at this
          cases this
      subst hl2
      simp only [insertNode.walk, hcn, List.take_succ_cons, List.take_nil, List.drop_succ_cons,
        List.drop_nil, List.singleton_append]
      have hnext : ∀ a, nextOf (setPrevSibling (setNextSibling g c (some x)) x (some c)) a =
          if a = c then some x else nextOf g a := by
        intro a
        simp [nextOf]
      refine (Seg_append _ _ _ _ _).2 ⟨m, ?_, ?_⟩
      · refine Seg_congr _ _ _ _ _ ?_ hs1
        intro a ha
        rw [hnext]
        have h1 : a ≠ c := fun hac => hnd2.2.2 ha (by simp [hac])
        simp [h1]
      · refine ⟨hs2.1, ?_⟩
        rw [hnext, if_pos rfl]
        refine ⟨rfl, ?_⟩
        rw [hnext, if_neg hxc]
        exact hxn
    | some nn =>
      have hl2 : ∃ l3, l2 = nn :: l3 := by
        cases l2 with
        | nil =>
          have : nextOf g c = none := hs2.2
          unfold nextOf at this
          rw [hcn] at this
          cases this
        | cons d l3 =>
          have := hs2.2.1
          unfold nextOf at this
          rw [hcn] at this
          cases this
          exact ⟨l3, rfl⟩
      obtain ⟨l3, rfl⟩ := hl2
      simp only [insertNode.walk, hcn]
      have e1 : l1 ++ c :: nn :: l3 = (l1 ++ [c]) ++ nn :: l3 := by simp
      have := ih (l1 ++ [c]) nn l3 (e1 ▸ hF) (e1 ▸ hB) (by
        simp only [List.mem_append, List.mem_cons, List.mem_singleton, not_or, List.not_mem_nil,
          or_false]
        simp only [List.mem_cons, not_or] at hx2
        exact ⟨⟨hx1, hxc⟩, hx2.1, hx2.2⟩) (fun _ => by simp) (e1 ▸ hnd)
      simpa using this

theorem insert_walk_FirstChild (g : Heap) (x k c a : Nat) :
    (insertNode.walk g x k c a).FirstChild = (g a).FirstChild := by
  induction k generalizing c with
  | zero =>
    simp only [insertNode.walk, insertNode.before]
    cases (g c).PrevSibling <;> simp
  | succ k ih =>
    simp only [insertNode.walk]
    cases (g c).NextSibling with
    | none => simp
    | some nn => exact ih nn

theorem insertNode_Apply_childSeq (h : Heap) (n : Nat) (cs : List Nat) (x : Nat) (i : Int)
    (hk : Kids h n cs) (hx : x ∉ cs) (hi : 1 ≤ i) :
    ChildSeq (insertNode.Apply { i := i, n := x } h n) n
      (cs.take i.toNat ++ x :: cs.drop i.toNat) := by
  obtain ⟨hF, hB, _⟩ := hk
  unfold ChildSeq at hF ⊢
  cases cs with
  | nil =>
    have e : (h n).FirstChild = none := hF
    simp only [insertNode.Apply, setPrevSibling_FirstChild, setNextSibling_FirstChild,
      setParent_FirstChild, e, List.take_nil, List.drop_nil, List.nil_append]
    refine ⟨by simp, ?_⟩
    show nextOf _ x = none
    simp [nextOf]
  | cons c l2 =>
    have e : (h n).FirstChild = some c := hF.1
    simp only [insertNode.Apply, setPrevSibling_FirstChild, setNextSibling_FirstChild,
      setParent_FirstChild, e]
    rw [insert_walk_FirstChild]
    simp only [setPrevSibling_FirstChild, setNextSibling_FirstChild, setParent_FirstChild, e]
    have key := insert_walk_chain
      (setPrevSibling (setNextSibling (setParent h x (some n)) x none) x none) x (some c)
      (h n).LastChild i.toNat [] c l2
      (by
        refine Seg_congr _ _ _ _ _ ?_ (e ▸ hF)
        intro a ha
        have : a ≠ x := fun hax => hx (hax ▸ ha)
        simp [nextOf, this])
      (by
        refine Seg_congr _ _ _ _ _ ?_ hB
        intro a ha
        have : a ≠ x := fun hax => hx (hax ▸ (List.mem_reverse.1 ha))
        simp [prevOf, this])
      hx (by simp) (by intro h0; omega)
    simpa using key

/-! ## Roots and trees -/

theorem exists_root (h : Heap) (wf : WellFormed h) (n : Nat) : ∃ r, LocalRoot h n r := by
  obtain ⟨depth, hd⟩ := wf.acyclic
  have key : ∀ m n, depth n ≤ m → ∃ r, LocalRoot h n r := by
    intro m
    induction m with
    | zero =>
      intro n hn
      cases hp : (h n).Parent with
      | none => exact ⟨n, LocalRoot.self n hp⟩
      | some p =>
        have := hd n p hp
        omega
    | succ m ih =>
      intro n hn
      cases hp : (h n).Parent with
      | none => exact ⟨n, LocalRoot.self n hp⟩
      | some p =>
        have := hd n p hp
        obtain ⟨r, hr⟩ := ih p (by omega)
        exact ⟨r, LocalRoot.up n p r hp hr⟩
  exact key (depth n) n (le_refl _)

theorem Kids_of_childSeq (h : Heap) (wf : WellFormed h) (n : Nat) (cs : List Nat)
    (hcs : ChildSeq h n cs) : Kids h n cs ∧ ∀ c, (h c).Parent = some n → c ∈ cs := by
  obtain ⟨cs2, hk, hall⟩ := wf.kids n
  have e : cs = cs2 := Seg_unique _ _ _ _ hcs hk.1
  subst e
  exact ⟨hk, hall⟩

theorem child_sameTree (h : Heap) (wf : WellFormed h) (n c : Nat) (hp : (h c).Parent = some n) :
    SameTree h c n := by
  obtain ⟨r, hr⟩ := exists_root h wf n
  exact ⟨r, LocalRoot.up c n r hp hr, hr⟩

theorem not_mem_of_not_sameTree (h : Heap) (wf : WellFormed h) (n x : Nat) (cs : List Nat)
    (hcs : ChildSeq h n cs) (hx : ¬ SameTree h x n) : x ∉ cs := by
  intro hmem
  exact hx (child_sameTree h wf n x ((Kids_of_childSeq h wf n cs hcs).1.2.2 x hmem))

/-! ## Listed memories -/

theorem heapOf_beyond (l : List HtmlNode) (a : Nat) (ha : l.length ≤ a) : heapOf l a = blank := by
  unfold heapOf
  simp [List.getD, List.getElem?_eq_none ha]

theorem WellFormed_heapOf (l : List HtmlNode) (kids : Nat → List Nat) (depth : Nat → Nat)
    (ok : heapOfOk l kids depth) : WellFormed (heapOf l) := by
  obtain ⟨h1, h2, h3, h4, h5⟩ := ok
  have hpar : ∀ c n, (heapOf l c).Parent = some n → c < l.length ∧ n < l.length := by
    intro c n hp
    by_cases hc : c < l.length
    · refine ⟨hc, ?_⟩
      have := h5 c hc
      rw [hp] at this
      simpa using this
    · rw [heapOf_beyond l c (by omega)] at hp
      cases hp
  refine ⟨?_, ?_, ?_⟩
  · intro n
    by_cases hn : n < l.length
    · refine ⟨kids n, h1 n hn, ?_⟩
      intro c hp
      exact h2 c (hpar c n hp).1 n hn hp
    · refine ⟨[], ?_, ?_⟩
      · have e := heapOf_beyond l n (by omega)
        unfold Kids ChildSeq
        rw [e]
        exact ⟨rfl, rfl, by simp⟩
      · intro c hp
        exact absurd (hpar c n hp).2 hn
  · intro c hp
    by_cases hc : c < l.length
    · exact h3 c hc hp
    · rw [heapOf_beyond l c (by omega)]
      exact ⟨rfl, rfl⟩
  · refine ⟨depth, ?_⟩
    intro c p hp
    exact h4 c (hpar c p hp).1 p (hpar c p hp).2 hp

theorem sampleHeap_wellFormed : WellFormed sampleHeap :=
  WellFormed_heapOf _ sampleKids sampleDepth (by decide)

/-! ## Paths do not depend on the children of the node or on other trees -/

theorem Anc_parent (h : Heap) (a n q : Nat) (ha : Anc h a n) (hq : (h a).Parent = some q) :
    Anc h q n := by
  induction ha with
  | refl => exact Anc.up q a q hq (Anc.refl q)
  | up n p hp _ ih => exact Anc.up q n p hp ih

theorem Anc_root (h : Heap) (a n r : Nat) (ha : Anc h a n) (hr : LocalRoot h n r) :
    LocalRoot h a r := by
  induction ha with
  | refl => exact hr
  | up n p hp _ ih =>
    cases hr with
    | self _ h0 => rw [hp] at h0; cases h0
    | up _ p2 _ hp2 hr2 =>
      rw [hp] at hp2
      cases hp2
      exact ih hr2

theorem Anc_depth (h : Heap) (depth : Nat → Nat)
    (hd : ∀ c p, (h c).Parent = some p → depth p < depth c) (a n : Nat) (ha : Anc h a n) :
    depth a ≤ depth n := by
  induction ha with
  | refl => exact le_refl _
  | up n p hp _ ih => exact le_trans ih (le_of_lt (hd n p hp))

theorem count_congr (h h2 : Heap) (l : List Nat) (p : Option Nat) (fuel : Nat)
    (hs : Seg (prevOf h) p l none)
    (hag : ∀ a ∈ l, (h2 a).PrevSibling = (h a).PrevSibling) :
    path.count h2 fuel p = path.count h fuel p := by
  induction l generalizing p fuel with
  | nil =>
    have e : p = none := hs
    subst e
    cases fuel <;> rfl
  | cons a l ih =>
    have e : p = some a := hs.1
    subst e
    cases fuel with
    | zero => rfl
    | succ f =>
      simp only [path.count]
      rw [hag a (List.mem_cons_self a l)]
      have := ih _ f hs.2 (fun b hb => hag b (List.mem_cons_of_mem a hb))
      unfold prevOf at this
      rw [this]

theorem path_frame (h h2 : Heap) (wf : WellFormed h) (n : Nat)
    (hag : ∀ m, SameTree h m n → (h m).Parent ≠ some n →
      (h2 m).Parent = (h m).Parent ∧ (h2 m).PrevSibling = (h m).PrevSibling)
    (fuel A : Nat) (hA : Anc h A n) : path h2 fuel A = path h fuel A := by
  obtain ⟨depth, hd⟩ := wf.acyclic
  obtain ⟨r, hr⟩ := exists_root h wf n
  induction fuel generalizing A with
  | zero => rfl
  | succ f ih =>
    have hAr : LocalRoot h A r := Anc_root h A n r hA hr
    have hAn : (h A).Parent ≠ some n := by
      intro hp
      have h1 := hd A n hp
      have h2 := Anc_depth h depth hd A n hA
      omega
    obtain ⟨e1, e2⟩ := hag A ⟨r, hAr, hr⟩ hAn
    simp only [path]
    rw [e1, e2]
    cases hp : (h A).Parent with
    | none =>
      rw [(wf.roots A hp).1]
      rfl
    | some P =>
      obtain ⟨cs, hk, hall⟩ := wf.kids P
      obtain ⟨l1, l2, e, hback, _⟩ := Kids_split h P A cs hk (hall A hp)
      have hPn : Anc h P n := Anc_parent h A n P hA hp
      have hPr : LocalRoot h P r := Anc_root h P n r hPn hr
      have hc : path.count h2 (f + 1) (h A).PrevSibling = path.count h (f + 1) (h A).PrevSibling := by
        refine count_congr h h2 l1.reverse _ _ hback ?_
        intro m hm
        have hmcs : m ∈ cs := by
          rw [e]
          simp only [List.mem_append, List.mem_cons]
          exact Or.inl (List.mem_reverse.1 hm)
        have hmp : (h m).Parent = some P := hk.2.2 m hmcs
        refine (hag m ⟨r, LocalRoot.up m P r hmp hPr, hr⟩ ?_).2
        rw [hmp]
        intro hPe
        exact hAn (hPe ▸ hp)
      rw [hc]
      simp only [ih P hPn]

theorem path_total (h : Heap) (wf : WellFormed h) (n : Nat) :
    ∃ F p, ∀ fuel, F ≤ fuel → path h fuel n = some p := by
  obtain ⟨r, hr⟩ := exists_root h wf n
  obtain ⟨F, p, hp⟩ := path_get_aux h wf n r hr
  exact ⟨F, p, fun fuel hf => (hp fuel hf).1⟩

/-! ## What the edits leave alone -/

theorem SameUp_refl (h : Heap) : SameUp h h := fun _ => ⟨rfl, rfl⟩

theorem SameUp_setNextSibling (h h2 : Heap) (a : Nat) (v : Option Nat) (hs : SameUp h h2) :
    SameUp h (setNextSibling h2 a v) := by
  intro m
  simpa using hs m

theorem SameUp_setFirstChild (h h2 : Heap) (a : Nat) (v : Option Nat) (hs : SameUp h h2) :
    SameUp h (setFirstChild h2 a v) := by
  intro m
  simpa using hs m

theorem SameUp_setLastChild (h h2 : Heap) (a : Nat) (v : Option Nat) (hs : SameUp h h2) :
    SameUp h (setLastChild h2 a v) := by
  intro m
  simpa using hs m

theorem SameUp_relinkNext (h h2 : Heap) (c : Nat) (hs : SameUp h h2) :
    SameUp h (rmnode.relinkNext h2 c) := by
  unfold rmnode.relinkNext
  split
  · exact SameUp_setNextSibling _ _ _ _ hs
  · exact hs

theorem SameUp_relinkPrev (h h2 : Heap) (c : Nat) (hs : SameUp h h2) :
    SameUp h (rmnode.relinkPrev h2 c) := by
  unfold rmnode.relinkPrev
  split
  · exact SameUp_setNextSibling _ _ _ _ hs
  · exact hs

theorem SameUp_fixFirst (h h2 : Heap) (c n : Nat) (hs : SameUp h h2)
    (hp : (h c).Parent = some n) :
    ∃ h3, rmnode.fixFirst h2 c = some h3 ∧ SameUp h h3 := by
  unfold rmnode.fixFirst
  rw [(hs c).1, hp]
  refine ⟨_, rfl, ?_⟩
  split
  · exact SameUp_setFirstChild _ _ _ _ hs
  · exact hs

theorem SameUp_fixLast (h h2 : Heap) (c n : Nat) (hs : SameUp h h2)
    (hp : (h c).Parent = some n) :
    ∃ h3, rmnode.fixLast h2 c = some h3 ∧ SameUp h h3 := by
  unfold rmnode.fixLast
  rw [(hs c).1, hp]
  refine ⟨_, rfl, ?_⟩
  split
  · exact SameUp_setLastChild _ _ _ _ hs
  · exact hs

theorem unlink_frame (h : Heap) (c n : Nat) (hp : (h c).Parent = some n) :
    ∃ h2, rmnode.unlink h c = some h2 ∧ ∀ m, m ≠ c →
      ((h2 m).Parent = (h m).Parent ∧ (h2 m).PrevSibling = (h m).PrevSibling) := by
  obtain ⟨h3, e3, s3⟩ := SameUp_fixFirst h _ c n
    (SameUp_relinkPrev h _ c (SameUp_relinkNext h _ c (SameUp_refl h))) hp
  obtain ⟨h4, e4, s4⟩ := SameUp_fixLast h h3 c n s3 hp
  refine ⟨rmnode.detach h4 c, ?_, ?_⟩
  · simp only [rmnode.unlink, e3, e4]
  · intro m hm
    simp [rmnode.detach, hm, (s4 m).1, (s4 m).2]

theorem rmnode_walk_frame (h : Heap) (n : Nat) (l : List Nat) (p : Option Nat) (k : Nat)
    (hs : Seg (nextOf h) p l none) (hpar : ∀ c ∈ l, (h c).Parent = some n) :
    ∃ h2, rmnode.walk h k p = some h2 ∧ ∀ m, m ∉ l →
      ((h2 m).Parent = (h m).Parent ∧ (h2 m).PrevSibling = (h m).PrevSibling) := by
  induction l generalizing p k with
  | nil =>
    have e : p = none := hs
    subst e
    refine ⟨h, by cases k <;> rfl, fun m _ => ⟨rfl, rfl⟩⟩
  | cons a l ih =>
    have e : p = some a := hs.1
    subst e
    cases k with
    | zero =>
      obtain ⟨h2, e2, hf⟩ := unlink_frame h a n (hpar a (List.mem_cons_self a l))
      refine ⟨h2, by simpa [rmnode.walk] using e2, ?_⟩
      intro m hm
      exact hf m (fun hma => hm (hma ▸ List.mem_cons_self a l))
    | succ k =>
      obtain ⟨h2, e2, hf⟩ := ih (h a).NextSibling k hs.2
        (fun c hc => hpar c (List.mem_cons_of_mem a hc))
      refine ⟨h2, by simpa [rmnode.walk] using e2, ?_⟩
      intro m hm
      exact hf m (fun hml => hm (List.mem_cons_of_mem a hml))

theorem rmnode_Apply_frame (h : Heap) (wf : WellFormed h) (n : Nat) (i : Int) :
    ∃ h2, rmnode.Apply i h n = some h2 ∧ ∀ m, (h m).Parent ≠ some n →
      ((h2 m).Parent = (h m).Parent ∧ (h2 m).PrevSibling = (h m).PrevSibling) := by
  obtain ⟨cs, hk, _⟩ := wf.kids n
  unfold rmnode.Apply
  by_cases hneg : i < 0
  · rw [if_pos hneg]
    exact ⟨h, rfl, fun m _ => ⟨rfl, rfl⟩⟩
  · rw [if_neg hneg]
    obtain ⟨h2, e2, hf⟩ := rmnode_walk_frame h n cs _ i.toNat hk.1 hk.2.2
    refine ⟨h2, e2, ?_⟩
    intro m hm
    exact hf m (fun hmem => hm (hk.2.2 m hmem))

theorem insert_walk_frame (g : Heap) (x : Nat) (k : Nat) (c : Nat) (l2 : List Nat)
    (hs : Seg (nextOf g) (nextOf g c) l2 none) (m : Nat) (hm : m ∉ c :: l2) (hmx : m ≠ x) :
    (insertNode.walk g x k c m).Parent = (g m).Parent ∧
      (insertNode.walk g x k c m).PrevSibling = (g m).PrevSibling := by
  induction k generalizing c l2 with
  | zero =>
    have hmc : m ≠ c := fun e => hm (e ▸ List.mem_cons_self c l2)
    simp only [insertNode.walk, insertNode.before]
    cases (g c).PrevSibling <;> simp [hmc, hmx]
  | succ k ih =>
    simp only [insertNode.walk]
    cases hcn : (g c).NextSibling with
    | none => simp [hmx]
    | some nn =>
      cases l2 with
      | nil =>
        have : nextOf g c = none := hs
        unfold nextOf at this
        rw [hcn] at this
        cases this
      | cons d l3 =>
        have e : nextOf g c = some d := hs.1
        unfold nextOf at e
        rw [hcn] at e
        cases e
        exact ih nn l3 hs.2 (fun hmem => hm (List.mem_cons_of_mem c hmem))

theorem insertNode_Apply_frame (h : Heap) (n x : Nat) (i : Int) (cs : List Nat)
    (hcs : ChildSeq h n cs) (hx : x ∉ cs) (m : Nat) (hm : m ∉ cs) (hmx : m ≠ x) :
    (insertNode.Apply { i := i, n := x } h n m).Parent = (h m).Parent ∧
      (insertNode.Apply { i := i, n := x } h n m).PrevSibling = (h m).PrevSibling := by
  unfold ChildSeq at hcs
  cases cs with
  | nil =>
    have e : (h n).FirstChild = none := hcs
    simp [insertNode.Apply, e, hmx]
  | cons c l2 =>
    have e : (h n).FirstChild = some c := hcs.1
    simp only [insertNode.Apply, setPrevSibling_FirstChild, setNextSibling_FirstChild,
      setParent_FirstChild, e]
    have key := insert_walk_frame
      (setPrevSibling (setNextSibling (setParent h x (some n)) x none) x none) x i.toNat c l2
      (by
        have hc : c ≠ x := fun hcx => hx (hcx ▸ List.mem_cons_self c l2)
        have h2 : Seg (nextOf h) (nextOf h c) l2 none := hcs.2
        have e2 : nextOf (setPrevSibling (setNextSibling (setParent h x (some n)) x none) x none) c
            = nextOf h c := by simp [nextOf, hc]
        rw [e2]
        refine Seg_congr _ _ _ _ _ ?_ h2
        intro a ha
        have : a ≠ x := fun hax => hx (hax ▸ List.mem_cons_of_mem c ha)
        simp [nextOf, this])
      m hm hmx
    simpa [hmx] using key

/-! ## Sequences of invocations: accounting -/

theorem invoke_record (n : Node) (m : Mutation) (fuel : Nat) (w w1 : World)
    (hrun : m.invoke n fuel w = some w1) :
    ∃ p, path w1.heap fuel n.N = some p ∧
      w1.logs = Function.update w.logs n.Cl
        { Buffer := (w.logs n.Cl).Buffer ++ [m.record p] } := by
  cases m with
  | setattr k v =>
    simp only [Mutation.invoke, Node.setattr] at hrun
    split at hrun
    · cases hrun
    · rename_i p hp
      cases hrun
      exact ⟨p, hp, rfl⟩
  | rmattr k =>
    simp only [Mutation.invoke, Node.rmattr] at hrun
    split at hrun
    · cases hrun
    · rename_i p hp
      cases hrun
      exact ⟨p, hp, rfl⟩
  | Insert o i =>
    simp only [Mutation.invoke, Node.Insert] at hrun
    split at hrun
    · cases hrun
    · rename_i p hp
      cases hrun
      exact ⟨p, hp, rfl⟩
  | Rm i =>
    simp only [Mutation.invoke, Node.Rm] at hrun
    split at hrun
    · cases hrun
    · rename_i h2 _
      split at hrun
      · cases hrun
      · rename_i p hp
        cases hrun
        exact ⟨p, hp, rfl⟩

theorem invokeAll_buffer (cl : Nat) (fuel : Nat) (calls : List (Node × Mutation))
    (w : World) (ws : List World) (hcl : ∀ c ∈ calls, c.1.Cl = cl)
    (hrun : invokeAll fuel calls w = some ws) :
    ∃ ps : List ipath, ps.length = calls.length ∧ ws.length = calls.length ∧
      ∀ j wj, ws[j]? = some wj →
        (wj.logs cl).Buffer = (w.logs cl).Buffer ++
            (List.zipWith (fun c p => c.2.record p) calls ps).take (j + 1) ∧
          ∃ c p, calls[j]? = some c ∧ ps[j]? = some p ∧ path wj.heap fuel c.1.N = some p := by
  induction calls generalizing w ws with
  | nil =>
    simp only [invokeAll, Option.some.injEq] at hrun
    subst hrun
    exact ⟨[], rfl, rfl, by simp⟩
  | cons c rest ih =>
    simp only [invokeAll] at hrun
    cases hc : c.2.invoke c.1 fuel w with
    | none => rw [hc] at hrun; cases hrun
    | some w1 =>
      simp only [hc] at hrun
      cases hr : invokeAll fuel rest w1 with
      | none => simp only [hr] at hrun; cases hrun
      | some ws2 =>
        simp only [hr, Option.map_some', Option.some.injEq] at hrun
        subst hrun
        obtain ⟨p, hp, hlog⟩ := invoke_record c.1 c.2 fuel w w1 hc
        obtain ⟨ps, hlen, hwlen, hall⟩ :=
          ih w1 ws2 (fun d hd => hcl d (List.mem_cons_of_mem c hd)) hr
        have hccl : c.1.Cl = cl := hcl c (List.mem_cons_self c rest)
        have hb1 : (w1.logs cl).Buffer = (w.logs cl).Buffer ++ [c.2.record p] := by
          rw [hlog, hccl]
          simp
        refine ⟨p :: ps, by simp [hlen], by simp [hwlen], ?_⟩
        intro j wj hj
        cases j with
        | zero =>
          simp only [List.getElem?_cons_zero, Option.some.injEq] at hj
          subst hj
          refine ⟨by simpa using hb1, c, p, by simp, by simp, hp⟩
        | succ j =>
          simp only [List.getElem?_cons_succ] at hj
          obtain ⟨hbuf, d, q, hd, hq, hpath⟩ := hall j wj hj
          refine ⟨?_, d, q, by simpa using hd, by simpa using hq, hpath⟩
          rw [hbuf, hb1]
          simp

/-! ## Every invocation returns on a well-formed tree -/

theorem setattr_Apply_links (s : setattr) (h : Heap) (n m : Nat) :
    (setattr.Apply s h n m).Parent = (h m).Parent ∧
      (setattr.Apply s h n m).PrevSibling = (h m).PrevSibling := by
  unfold setattr.Apply
  cases s.scan (h n).Attr <;> simp

theorem rmattr_Apply_links (r : rmattr) (h : Heap) (n m : Nat) :
    (rmattr.Apply r h n m).Parent = (h m).Parent ∧
      (rmattr.Apply r h n m).PrevSibling = (h m).PrevSibling := by
  unfold rmattr.Apply
  by_cases hb : rmattr.scan r (h n).Attr 0 ≠ -1
  · simp [hb]
  · simp [hb]

theorem World_record_buffer (w : World) (h : Heap) (cl : Nat) (c : Change) :
    ((w.record h cl c).logs cl).Buffer = (w.logs cl).Buffer ++ [c] := by
  simp [World.record]

theorem invoke_total (w : World) (wf : WellFormed w.heap) (n : Node) (m : Mutation)
    (hins : ∀ o i, m = Mutation.Insert o i → ¬ SameTree w.heap o n.N) :
    ∃ F p, ∀ fuel, F ≤ fuel → path w.heap fuel n.N = some p ∧
      ∃ w1, m.invoke n fuel w = some w1 ∧
        (w1.logs n.Cl).Buffer = (w.logs n.Cl).Buffer ++ [m.record p] := by
  obtain ⟨F, p, hp⟩ := path_total w.heap wf n.N
  refine ⟨F, p, ?_⟩
  intro fuel hf
  refine ⟨hp fuel hf, ?_⟩
  cases m with
  | setattr k v =>
    have e := path_frame w.heap (setattr.Apply { Key := k, Val := v } w.heap n.N) wf n.N
      (fun m _ _ => setattr_Apply_links _ _ _ m) fuel n.N (Anc.refl _)
    simp only [Mutation.invoke, Node.setattr, e, hp fuel hf]
    exact ⟨_, rfl, World_record_buffer _ _ _ _⟩
  | rmattr k =>
    have e := path_frame w.heap (rmattr.Apply k w.heap n.N) wf n.N
      (fun m _ _ => rmattr_Apply_links _ _ _ m) fuel n.N (Anc.refl _)
    simp only [Mutation.invoke, Node.rmattr, e, hp fuel hf]
    exact ⟨_, rfl, World_record_buffer _ _ _ _⟩
  | Insert o i =>
    obtain ⟨cs, hk, _⟩ := wf.kids n.N
    have hx : o ∉ cs := not_mem_of_not_sameTree w.heap wf n.N o cs hk.1 (hins o i rfl)
    have e := path_frame w.heap (insertNode.Apply { i := i, n := o } w.heap n.N) wf n.N
      (fun m hm hmp => insertNode_Apply_frame w.heap n.N o i cs hk.1 hx m
        (fun hmem => hmp (hk.2.2 m hmem))
        (fun hmo => hins o i rfl (hmo ▸ hm))) fuel n.N (Anc.refl _)
    simp only [Mutation.invoke, Node.Insert, e, hp fuel hf]
    exact ⟨_, rfl, World_record_buffer _ _ _ _⟩
  | Rm i =>
    obtain ⟨h2, e2, hfr⟩ := rmnode_Apply_frame w.heap wf n.N i
    have e := path_frame w.heap h2 wf n.N (fun m _ hmp => hfr m hmp) fuel n.N (Anc.refl _)
    simp only [Mutation.invoke, Node.Rm, e2, e, hp fuel hf]
    exact ⟨_, rfl, World_record_buffer _ _ _ _⟩

/-! ## Removing the only child and inserting into the empty list -/

theorem rmnode_sole (h : Heap) (E c : Nat) (hk : Kids h E [c]) :
    rmnode.Apply 0 h E =
      some (rmnode.detach (setLastChild (setFirstChild h E none) E none) c) := by
  obtain ⟨hF, hB, hP⟩ := hk
  have hfirst : (h E).FirstChild = some c := hF.1
  have hnext : (h c).NextSibling = none := hF.2
  have hlast : (h E).LastChild = some c := hB.1
  have hprev : (h c).PrevSibling = none := hB.2
  have hpar : (h c).Parent = some E := hP c (List.mem_singleton_self c)
  simp [rmnode.Apply, rmnode.walk, hfirst, rmnode.unlink, rmnode.relinkNext, rmnode.relinkPrev,
    rmnode.fixFirst, rmnode.fixLast, hnext, hprev, hpar, hlast]

theorem insert_after_sole (h : Heap) (E c x : Nat) (i : Int) :
    insertNode.Apply { i := i, n := x }
        (rmnode.detach (setLastChild (setFirstChild h E none) E none) c) E =
      setLastChild (setFirstChild (setPrevSibling (setNextSibling (setParent
        (rmnode.detach (setLastChild (setFirstChild h E none) E none) c) x (some E)) x none)
          x none) E (some x)) E (some x) := by
  simp [insertNode.Apply, rmnode.detach]

/-! ## Removing an absent attribute -/

theorem rmattr_scan_absent (r : rmattr) (l : List Attribute) (i : Int)
    (hk : ∀ a ∈ l, a.Key ≠ r) : rmattr.scan r l i = -1 := by
  induction l generalizing i with
  | nil => rfl
  | cons a l ih =>
    simp only [rmattr.scan]
    rw [if_neg (hk a (List.mem_cons_self a l))]
    exact ih (i + 1) (fun b hb => hk b (List.mem_cons_of_mem a hb))

theorem rmattr_Apply_absent (r : rmattr) (h : Heap) (n : Nat)
    (hk : ∀ a ∈ (h n).Attr, a.Key ≠ r) : rmattr.Apply r h n = h := by
  unfold rmattr.Apply
  simp [rmattr_scan_absent r _ 0 hk]

/-! ## Facts about the examples -/

theorem sample_root_3 : LocalRoot sampleHeap 3 0 :=
  LocalRoot.up 3 1 0 rfl (LocalRoot.up 1 0 0 rfl (LocalRoot.self 0 rfl))

theorem sample_4_outside (n : Nat) (hn : LocalRoot sampleHeap n 0) : ¬ SameTree sampleHeap 4 n := by
  rintro ⟨r, h4, hr⟩
  have e4 : r = 4 := by
    cases h4 with
    | self _ _ => rfl
    | up _ p _ hp _ =>
      have h0 : (sampleHeap 4).Parent = none := rfl
      rw [h0] at hp
      cases hp
  subst e4
  have key : ∀ a b, LocalRoot sampleHeap a b → LocalRoot sampleHeap a 0 → b = 0 := by
    intro a b hab
    induction hab with
    | self a h0 =>
      intro ha
      cases ha with
      | self _ _ => rfl
      | up _ p _ hp _ => rw [h0] at hp; cases hp
    | up a p b hp _ ih =>
      intro ha
      cases ha with
      | self _ h0 => rw [h0] at hp; cases hp
      | up _ p2 _ hp2 hr2 =>
        rw [hp] at hp2
        cases hp2
        exact ih hr2
  have := key n 4 hr hn
  omega

/-! ## The claims -/

/-- C1 (cross-instance replay), evaluated at the failing input: tree A is the
root `0` with the only child `1`, tree B the identical root `2` with the only
child `3`.  `Rm(0)` on the handle of `0` appends one Change; applying that
Change to the root of B returns no error and leaves B as it was, because
`Change.apply` has no case for `Rmnode`: afterwards A has no children while B
still has its child. -/
theorem C1_replay_skips_Rmnode :
    ∃ w1 c hB,
      Node.Rm { N := 0, Cl := 0 } 0 10 twinWorld = some w1 ∧
      (w1.logs 0).Buffer = [c] ∧
      c = { IPath := [], Rmnode := some 0 } ∧
      c.apply w1.heap 10 2 = some (hB, none) ∧
      Node.children { N := 0, Cl := 0 } hB 10 = some [] ∧
      Node.children { N := 2, Cl := 0 } hB 10 = some [{ N := 3, Cl := 0 }] := by
  refine ⟨_, _, _, rfl, rfl, rfl, rfl, ?_, ?_⟩ <;> decide

/-- C2 (path round trip): in a well-formed memory, for every node `N` whose
nearest parentless ancestor-or-self is `R`, `path(N)` returns a path `p` and
`p.get(R)` returns exactly `N`, for every sufficiently large fuel. -/
theorem C2_path_get_roundtrip (h : Heap) (N R : Nat) (wf : WellFormed h)
    (hr : LocalRoot h N R) :
    ∃ F p, ∀ fuel, F ≤ fuel →
      path h fuel N = some p ∧ ipath.get h fuel p R = some (some N) :=
  path_get_aux h wf N R hr

theorem C2_path_get_roundtrip_witness :
    WellFormed sampleHeap ∧ LocalRoot sampleHeap 3 0 ∧
      ∃ F p, ∀ fuel, F ≤ fuel →
        path sampleHeap fuel 3 = some p ∧ ipath.get sampleHeap fuel p 0 = some (some 3) :=
  ⟨sampleHeap_wellFormed, sample_root_3,
    C2_path_get_roundtrip sampleHeap 3 0 sampleHeap_wellFormed sample_root_3⟩

/-- C3 (in-range removeChild), evaluated at the failing input: the root `0` of
`sampleHeap` has the children `1, 2`; after `rmnode(0).Apply` its forward child
sequence is empty instead of `2`, because `next.NextSibling` is overwritten with
`next.PrevSibling` before it is stored in `FirstChild`. -/
theorem C3_rmnode_first_loses_siblings :
    Node.children { N := 0, Cl := 0 } sampleHeap 10
        = some [{ N := 1, Cl := 0 }, { N := 2, Cl := 0 }] ∧
      (rmnode.Apply 0 sampleHeap 0).bind
        (fun h => Node.children { N := 0, Cl := 0 } h 10) = some [] := by
  decide

/-- C4 (insertChild prepend), evaluated at the failing input: the root `0` of
`sampleHeap` has the children `1, 2` and node `4` is detached; after
`insertNode{0, 4}.Apply` the forward child sequence is still `1, 2`, because
`FirstChild` is not updated when the node is linked before the first child. -/
theorem C4_insert_prepend_not_visible :
    Node.children { N := 0, Cl := 0 } sampleHeap 10
        = some [{ N := 1, Cl := 0 }, { N := 2, Cl := 0 }] ∧
      Node.children { N := 0, Cl := 0 } (insertNode.Apply { i := 0, n := 4 } sampleHeap 0) 10
        = some [{ N := 1, Cl := 0 }, { N := 2, Cl := 0 }] := by
  decide

/-- C5 (insertChild append / insert-before): in a well-formed memory, for a node
`n` with forward child sequence `cs`, a node `x` outside the tree of `n` and an
index `i ≥ 1`, after `insertNode{i, x}.Apply(n)` the method `children` returns
`cs` followed by `x` when `i ≥ len(cs)` (also for the empty `cs`), and otherwise
`cs` with `x` placed immediately before the former child at position `i`. -/
theorem C5_insert_append_or_before (h : Heap) (n : Nat) (cs : List Nat) (x : Nat) (i : Int)
    (cl fuel : Nat) (wf : WellFormed h) (hcs : ChildSeq h n cs)
    (hx : ¬ SameTree h x n) (hi : 1 ≤ i) (hf : cs.length + 1 ≤ fuel) :
    Node.children { N := n, Cl := cl } (insertNode.Apply { i := i, n := x } h n) fuel =
      some ((if (cs.length : Int) ≤ i then cs ++ [x]
        else cs.take i.toNat ++ x :: cs.drop i.toNat).map (fun a => { N := a, Cl := cl })) := by
  have hk := (Kids_of_childSeq h wf n cs hcs).1
  have hxc := not_mem_of_not_sameTree h wf n x cs hcs hx
  have hseq := insertNode_Apply_childSeq h n cs x i hk hxc hi
  have e : (if (cs.length : Int) ≤ i then cs ++ [x]
      else cs.take i.toNat ++ x :: cs.drop i.toNat) = cs.take i.toNat ++ x :: cs.drop i.toNat := by
    split
    · rename_i hle
      have h1 : cs.length ≤ i.toNat := by omega
      rw [List.take_of_length_le h1, List.drop_of_length_le h1]
    · rfl
  rw [e]
  unfold Node.children
  exact childrenFrom_of_seg _ cl _ _ fuel hseq (by simp; omega)

theorem C5_insert_append_or_before_witness :
    Node.children { N := 0, Cl := 0 } (insertNode.Apply { i := 1, n := 4 } sampleHeap 0) 3 =
      some ((if (([1, 2] : List Nat).length : Int) ≤ 1 then [1, 2] ++ [4]
        else ([1, 2] : List Nat).take (1 : Int).toNat ++ 4 :: ([1, 2] : List Nat).drop (1 : Int).toNat).map
          (fun a => { N := a, Cl := 0 })) :=
  C5_insert_append_or_before sampleHeap 0 [1, 2] 4 1 0 3 sampleHeap_wellFormed (by decide)
    (sample_4_outside 0 (LocalRoot.self 0 rfl)) (by decide) (by decide)

/-- C6, counterexample: node `3` of `sampleHeap` has no children, so the index
`0` is out of range, and the changelog `0` is empty; yet `Rm(0)` on its handle
leaves one Change in the Buffer. -/
theorem C6_Rm_out_of_range_counterexample :
    ChildSeq sampleHeap 3 [] ∧ (sampleWorld.logs 0).Buffer = [] ∧
      (Node.Rm { N := 3, Cl := 0 } 0 10 sampleWorld).map (fun w1 => (w1.logs 0).Buffer)
        = some [{ IPath := [0, 0], Rmnode := some 0 }] := by
  decide

/-- C6, amended: in a well-formed memory, for a handle whose node has the child
sequence `cs` and an index `i` with `i < 0` or `i ≥ len(cs)`, `Node.Rm(i)`
returns (for every sufficiently large fuel), leaves the memory unchanged and
appends exactly one Change to the Buffer: the remove-child record with index
`i` and the path of the node. -/
theorem C6_Rm_out_of_range_appends_one (w : World) (n : Node) (cs : List Nat) (i : Int)
    (wf : WellFormed w.heap) (hcs : ChildSeq w.heap n.N cs)
    (hi : i < 0 ∨ (cs.length : Int) ≤ i) :
    ∃ F p, ∀ fuel, F ≤ fuel → path w.heap fuel n.N = some p ∧
      ∃ w1, Node.Rm n i fuel w = some w1 ∧ w1.heap = w.heap ∧
        (w1.logs n.Cl).Buffer = (w.logs n.Cl).Buffer ++ [{ IPath := p, Rmnode := some i }] := by
  obtain ⟨F, p, hp⟩ := path_total w.heap wf n.N
  refine ⟨F, p, ?_⟩
  intro fuel hf
  refine ⟨hp fuel hf, ?_⟩
  simp only [Node.Rm, rmnode_Apply_out_of_range w.heap n.N cs i hcs hi, hp fuel hf]
  exact ⟨_, rfl, rfl, World_record_buffer _ _ _ _⟩

theorem C6_Rm_out_of_range_appends_one_witness :
    ∃ F p, ∀ fuel, F ≤ fuel → path sampleWorld.heap fuel 3 = some p ∧
      ∃ w1, Node.Rm { N := 3, Cl := 0 } 7 fuel sampleWorld = some w1 ∧
        w1.heap = sampleWorld.heap ∧
        (w1.logs 0).Buffer = (sampleWorld.logs 0).Buffer ++ [{ IPath := p, Rmnode := some 7 }] :=
  C6_Rm_out_of_range_appends_one sampleWorld { N := 3, Cl := 0 } [] 7 sampleHeap_wellFormed
    (by decide) (by decide)

/-- C7 (out-of-range removeChild does not mutate the tree): for a node `n` with
forward child sequence `cs` and an index `i` with `i < 0` or `i ≥ len(cs)`,
`rmnode(i).Apply(n)` returns without failure and the memory afterwards is the
memory before: every link and every attribute of every node is unchanged. -/
theorem C7_rmnode_out_of_range_noop (h : Heap) (n : Nat) (cs : List Nat) (i : Int)
    (hcs : ChildSeq h n cs) (hi : i < 0 ∨ (cs.length : Int) ≤ i) :
    rmnode.Apply i h n = some h :=
  rmnode_Apply_out_of_range h n cs i hcs hi

theorem C7_rmnode_out_of_range_noop_witness :
    ChildSeq sampleHeap 0 [1, 2] ∧ rmnode.Apply 2 sampleHeap 0 = some sampleHeap :=
  ⟨by decide, C7_rmnode_out_of_range_noop sampleHeap 0 [1, 2] 2 (by decide) (by decide)⟩

/-- C8, counterexample: node `1` of `sampleHeap` has the only attribute `id` and
the changelog `0` is empty; `rmattr("style")` on its handle leaves the attributes
as they were, yet one Change is in the Buffer afterwards. -/
theorem C8_rmattr_absent_counterexample :
    (sampleHeap 1).Attr = [{ Namespace := "", Key := "id", Val := "counter" }] ∧
      (sampleWorld.logs 0).Buffer = [] ∧
      (Node.rmattr { N := 1, Cl := 0 } "style" 10 sampleWorld).map
          (fun w1 => ((w1.heap 1).Attr, (w1.logs 0).Buffer))
        = some ([{ Namespace := "", Key := "id", Val := "counter" }],
            [{ IPath := [0], Rmattr := some "style" }]) := by
  decide

/-- C8, amended: in a well-formed memory, for a handle whose node has no
attribute with key `k`, `Node.rmattr(k)` returns (for every sufficiently large
fuel), leaves the memory and so the attribute sequence of the node unchanged,
and appends exactly one Change to the Buffer: the remove-attribute record with
key `k` and the path of the node. -/
theorem C8_rmattr_absent_appends_one (w : World) (n : Node) (k : String)
    (wf : WellFormed w.heap) (hk : ∀ a ∈ (w.heap n.N).Attr, a.Key ≠ k) :
    ∃ F p, ∀ fuel, F ≤ fuel → path w.heap fuel n.N = some p ∧
      ∃ w1, Node.rmattr n k fuel w = some w1 ∧ w1.heap = w.heap ∧
        (w1.heap n.N).Attr = (w.heap n.N).Attr ∧
        (w1.logs n.Cl).Buffer = (w.logs n.Cl).Buffer ++ [{ IPath := p, Rmattr := some k }] := by
  obtain ⟨F, p, hp⟩ := path_total w.heap wf n.N
  refine ⟨F, p, ?_⟩
  intro fuel hf
  refine ⟨hp fuel hf, ?_⟩
  simp only [Node.rmattr, rmattr_Apply_absent k w.heap n.N hk, hp fuel hf]
  exact ⟨_, rfl, rfl, rfl, World_record_buffer _ _ _ _⟩

theorem C8_rmattr_absent_appends_one_witness :
    ∃ F p, ∀ fuel, F ≤ fuel → path sampleWorld.heap fuel 1 = some p ∧
      ∃ w1, Node.rmattr { N := 1, Cl := 0 } "style" fuel sampleWorld = some w1 ∧
        w1.heap = sampleWorld.heap ∧
        (w1.heap 1).Attr = (sampleWorld.heap 1).Attr ∧
        (w1.logs 0).Buffer = (sampleWorld.logs 0).Buffer ++
          [{ IPath := p, Rmattr := some "style" }] :=
  C8_rmattr_absent_appends_one sampleWorld { N := 1, Cl := 0 } "style" sampleHeap_wellFormed
    (by decide)

/-- C9, amended (changelog accounting for invocations that return): start from
an empty Buffer `cl` and perform any list `calls` of invocations (setattr,
rmattr, Insert, Rm with any arguments) on handles of that changelog, all of
which return; `ws` lists the states after each invocation.  Then there are as
many states as invocations, and there are paths `ps` such that the Buffer after
invocation `j` holds exactly the records of the invocations `0, ..., j` in
order, the record of invocation `j` carrying the path of its node computed right
after its edit; so the final Buffer holds exactly `len(calls)` Changes, and
after the flush step it holds none.  Moreover, in a well-formed memory any
single invocation (an Insert taking its node from outside the tree) does return
for every sufficiently large fuel and appends its record. -/
theorem C9_changelog_accounting (cl fuel : Nat) (calls : List (Node × Mutation))
    (w : World) (ws : List World) (hcl : ∀ c ∈ calls, c.1.Cl = cl)
    (hempty : (w.logs cl).Buffer = []) (hrun : invokeAll fuel calls w = some ws) :
    ws.length = calls.length ∧
    (∃ ps : List ipath, ps.length = calls.length ∧
      ∀ j wj, ws[j]? = some wj →
        (wj.logs cl).Buffer = (List.zipWith (fun c p => c.2.record p) calls ps).take (j + 1) ∧
          ∃ c p, calls[j]? = some c ∧ ps[j]? = some p ∧ path wj.heap fuel c.1.N = some p) ∧
    ((ws.getLast?.getD w).logs cl).Buffer.length = calls.length ∧
    (((ws.getLast?.getD w).flush cl).logs cl).Buffer = [] ∧
    (∀ (n : Node) (m : Mutation), WellFormed w.heap →
      (∀ o i, m = Mutation.Insert o i → ¬ SameTree w.heap o n.N) →
      ∃ F p, ∀ fuel2, F ≤ fuel2 → path w.heap fuel2 n.N = some p ∧
        ∃ w1, m.invoke n fuel2 w = some w1 ∧
          (w1.logs n.Cl).Buffer = (w.logs n.Cl).Buffer ++ [m.record p]) := by
  obtain ⟨ps, hlen, hwlen, hall⟩ := invokeAll_buffer cl fuel calls w ws hcl hrun
  refine ⟨hwlen, ⟨ps, hlen, ?_⟩, ?_, ?_, ?_⟩
  · intro j wj hj
    obtain ⟨hb, hrest⟩ := hall j wj hj
    rw [hempty] at hb
    exact ⟨by simpa using hb, hrest⟩
  · rcases List.eq_nil_or_concat ws with h0 | ⟨ws0, wN, h0⟩
    · subst h0
      have hc0 : calls.length = 0 := by simpa using hwlen.symm
      simp [hempty, hc0]
    · have h1 : ws = ws0 ++ [wN] := by simpa using h0
      subst h1
      have hN : calls.length = ws0.length + 1 := by simpa using hwlen.symm
      have hget : (ws0 ++ [wN])[ws0.length]? = some wN := by simp
      obtain ⟨hb, _⟩ := hall ws0.length wN hget
      rw [hempty] at hb
      have hlast : (ws0 ++ [wN]).getLast? = some wN := by simp
      rw [hlast, Option.getD_some, hb]
      simp [hlen, hN]
  · simp [World.flush]
  · intro n m wf hins
    exact invoke_total w wf n m hins

theorem C9_changelog_accounting_witness :
    ∃ ws, invokeAll 10 sampleCalls sampleWorld = some ws ∧
      ws.length = sampleCalls.length ∧
      (∃ ps : List ipath, ps.length = sampleCalls.length ∧
        ∀ j wj, ws[j]? = some wj →
          (wj.logs 0).Buffer =
              (List.zipWith (fun c p => c.2.record p) sampleCalls ps).take (j + 1) ∧
            ∃ c p, sampleCalls[j]? = some c ∧ ps[j]? = some p ∧
              path wj.heap 10 c.1.N = some p) ∧
      ((ws.getLast?.getD sampleWorld).logs 0).Buffer.length = sampleCalls.length ∧
      (((ws.getLast?.getD sampleWorld).flush 0).logs 0).Buffer = [] ∧
      (∀ (n : Node) (m : Mutation), WellFormed sampleWorld.heap →
        (∀ o i, m = Mutation.Insert o i → ¬ SameTree sampleWorld.heap o n.N) →
        ∃ F p, ∀ fuel2, F ≤ fuel2 → path sampleWorld.heap fuel2 n.N = some p ∧
          ∃ w1, m.invoke n fuel2 sampleWorld = some w1 ∧
            (w1.logs n.Cl).Buffer = (sampleWorld.logs n.Cl).Buffer ++ [m.record p]) := by
  cases hr : invokeAll 10 sampleCalls sampleWorld with
  | none =>
    have hs : (invokeAll 10 sampleCalls sampleWorld).isSome = true := by decide
    rw [hr] at hs
    cases hs
  | some ws =>
    exact ⟨ws, rfl, C9_changelog_accounting 0 10 sampleCalls sampleWorld ws (by decide) rfl hr⟩

/-- C10, amended (replace the only child, with a node from outside the tree):
in a well-formed memory, for a handle `E` whose node has exactly one child `c`,
a detached node `x` that does not belong to the tree of `E` and an empty
changelog, `Rm(0)` followed by `Insert(x, 0)` both return (for every
sufficiently large fuel) and leave exactly two Changes in the Buffer: the
remove-child record with index 0 and the insert-child record with index 0 and
node `x`, both with the path of `E`; afterwards the child sequence of `E` is
exactly `x`, and `FirstChild` and `LastChild` of `E` are `x`. -/
theorem C10_replace_sole_child (w : World) (E : Node) (c x : Nat)
    (wf : WellFormed w.heap) (hc : ChildSeq w.heap E.N [c])
    (hd : Detached w.heap x) (hx : ¬ SameTree w.heap x E.N)
    (hempty : (w.logs E.Cl).Buffer = []) :
    ∃ F p, ∀ fuel, F ≤ fuel → path w.heap fuel E.N = some p ∧
      ∃ w1 w2, Node.Rm E 0 fuel w = some w1 ∧ Node.Insert E x 0 fuel w1 = some w2 ∧
        (w2.logs E.Cl).Buffer =
          [{ IPath := p, Rmnode := some 0 },
           { IPath := p, InsertNode := some { i := 0, n := x } }] ∧
        Node.children E w2.heap fuel = some [{ N := x, Cl := E.Cl }] ∧
        (w2.heap E.N).FirstChild = some x ∧ (w2.heap E.N).LastChild = some x := by
  have _ := hd
  have hk := (Kids_of_childSeq w.heap wf E.N [c] hc).1
  obtain ⟨F, p, hp⟩ := path_total w.heap wf E.N
  refine ⟨F + 1, p, ?_⟩
  intro fuel hf
  have hpf := hp fuel (by omega)
  have hpar : (w.heap c).Parent = some E.N := hk.2.2 c (List.mem_singleton_self c)
  have e1 := rmnode_sole w.heap E.N c hk
  have e2 := insert_after_sole w.heap E.N c x 0
  have p1 : path (rmnode.detach (setLastChild (setFirstChild w.heap E.N none) E.N none) c)
      fuel E.N = some p := by
    rw [path_frame w.heap _ wf E.N ?_ fuel E.N (Anc.refl _)]
    · exact hpf
    · intro m _ hmp
      have hmc : m ≠ c := fun e => hmp (e ▸ hpar)
      simp [rmnode.detach, hmc]
  have p2 : path (insertNode.Apply { i := 0, n := x }
      (rmnode.detach (setLastChild (setFirstChild w.heap E.N none) E.N none) c) E.N)
      fuel E.N = some p := by
    rw [path_frame w.heap _ wf E.N ?_ fuel E.N (Anc.refl _)]
    · exact hpf
    · intro m hm hmp
      have hmc : m ≠ c := fun e => hmp (e ▸ hpar)
      have hmx : m ≠ x := fun e => hx (e ▸ hm)
      rw [e2]
      simp [rmnode.detach, hmc, hmx]
  refine ⟨hpf,
    w.record (rmnode.detach (setLastChild (setFirstChild w.heap E.N none) E.N none) c) E.Cl
      { IPath := p, Rmnode := some 0 },
    (w.record (rmnode.detach (setLastChild (setFirstChild w.heap E.N none) E.N none) c) E.Cl
      { IPath := p, Rmnode := some 0 }).record
      (insertNode.Apply { i := 0, n := x }
        (rmnode.detach (setLastChild (setFirstChild w.heap E.N none) E.N none) c) E.N) E.Cl
      { IPath := p, InsertNode := some { i := 0, n := x } }, ?_, ?_, ?_, ?_, ?_, ?_⟩
  · simp only [Node.Rm, e1, p1]
  · simp only [Node.Insert, World.record, p2]
  · simp [World.record, hempty]
  · show Node.children E (insertNode.Apply { i := 0, n := x }
      (rmnode.detach (setLastChild (setFirstChild w.heap E.N none) E.N none) c) E.N) fuel = _
    rw [e2]
    unfold Node.children
    refine childrenFrom_of_seg _ E.Cl [x] _ fuel ?_ (by simp; omega)
    refine ⟨by simp, ?_⟩
    show nextOf _ x = none
    simp [nextOf]
  · show (insertNode.Apply { i := 0, n := x }
      (rmnode.detach (setLastChild (setFirstChild w.heap E.N none) E.N none) c) E.N E.N).FirstChild
        = some x
    rw [e2]
    simp
  · show (insertNode.Apply { i := 0, n := x }
      (rmnode.detach (setLastChild (setFirstChild w.heap E.N none) E.N none) c) E.N E.N).LastChild
        = some x
    rw [e2]
    simp

theorem C10_replace_sole_child_witness :
    ∃ F p, ∀ fuel, F ≤ fuel → path sampleWorld.heap fuel 1 = some p ∧
      ∃ w1 w2, Node.Rm { N := 1, Cl := 0 } 0 fuel sampleWorld = some w1 ∧
        Node.Insert { N := 1, Cl := 0 } 4 0 fuel w1 = some w2 ∧
        (w2.logs 0).Buffer =
          [{ IPath := p, Rmnode := some 0 },
           { IPath := p, InsertNode := some { i := 0, n := 4 } }] ∧
        Node.children { N := 1, Cl := 0 } w2.heap fuel = some [{ N := 4, Cl := 0 }] ∧
        (w2.heap 1).FirstChild = some 4 ∧ (w2.heap 1).LastChild = some 4 :=
  C10_replace_sole_child sampleWorld { N := 1, Cl := 0 } 3 4 sampleHeap_wellFormed
    (by decide) ⟨rfl, rfl, rfl⟩
    (sample_4_outside 1 (LocalRoot.up 1 0 0 rfl (LocalRoot.self 0 rfl))) rfl

/-! ## Attribute edits -/

theorem setattr_scan_hit (s : setattr) (l1 : List Attribute) (a : Attribute)
    (l2 : List Attribute) (hno : ∀ b ∈ l1, b.Key ≠ s.Key) (ha : a.Key = s.Key) :
    setattr.scan s (l1 ++ a :: l2) = some (l1 ++ { a with Val := s.Val } :: l2) := by
  induction l1 with
  | nil => simp [setattr.scan, ha]
  | cons b l ih =>
    have hb : b.Key ≠ s.Key := hno b (List.mem_cons_self b l)
    have e := ih (fun c hc => hno c (List.mem_cons_of_mem b hc))
    show setattr.scan s (b :: (l ++ a :: l2)) = _
    simp only [setattr.scan]
    rw [if_pos hb, e]
    rfl

theorem setattr_scan_miss (s : setattr) (l : List Attribute)
    (hno : ∀ b ∈ l, b.Key ≠ s.Key) : setattr.scan s l = none := by
  induction l with
  | nil => rfl
  | cons b l ih =>
    have hb : b.Key ≠ s.Key := hno b (List.mem_cons_self b l)
    simp only [setattr.scan]
    rw [if_pos hb, ih (fun c hc => hno c (List.mem_cons_of_mem b hc))]
    rfl

theorem setattr_scan_none (s : setattr) (l : List Attribute) (hs : setattr.scan s l = none) :
    ∀ b ∈ l, b.Key ≠ s.Key := by
  induction l with
  | nil => intro b hb; cases hb
  | cons a l ih =>
    simp only [setattr.scan] at hs
    by_cases ha : a.Key ≠ s.Key
    · rw [if_pos ha] at hs
      have hl : setattr.scan s l = none := by
        cases hsl : setattr.scan s l with
        | none => rfl
        | some r => rw [hsl] at hs; cases hs
      intro b hb
      rcases List.mem_cons.1 hb with e | hmem
      · exact e ▸ ha
      · exact ih hl b hmem
    · rw [if_neg ha] at hs
      cases hs

theorem setattr_scan_idem (s : setattr) (l l2 : List Attribute)
    (hs : setattr.scan s l = some l2) : setattr.scan s l2 = some l2 := by
  induction l generalizing l2 with
  | nil => cases hs
  | cons a l ih =>
    simp only [setattr.scan] at hs
    by_cases ha : a.Key ≠ s.Key
    · rw [if_pos ha] at hs
      cases hsl : setattr.scan s l with
      | none => rw [hsl] at hs; cases hs
      | some r =>
        rw [hsl] at hs
        simp only [Option.map_some', Option.some.injEq] at hs
        subst hs
        simp only [setattr.scan]
        rw [if_pos ha, ih r hsl]
        rfl
    · rw [if_neg ha] at hs
      simp only [Option.some.injEq] at hs
      subst hs
      simp only [setattr.scan]
      rw [if_neg ha]

theorem setAttr_setAttr (h : Heap) (n : Nat) (l l2 : List Attribute) :
    setAttr (setAttr h n l) n l2 = setAttr h n l2 := by
  funext m
  unfold setAttr
  by_cases hm : m = n
  · subst hm
    simp
  · simp [Function.update_noteq hm]

theorem setattr_Apply_eq (s : setattr) (h : Heap) (n : Nat) (l : List Attribute)
    (hs : setattr.scan s (h n).Attr = some l) : setattr.Apply s h n = setAttr h n l := by
  unfold setattr.Apply
  rw [hs]

theorem setattr_Apply_eq_append (s : setattr) (h : Heap) (n : Nat)
    (hs : setattr.scan s (h n).Attr = none) :
    setattr.Apply s h n =
      setAttr h n ((h n).Attr ++ [{ Namespace := "", Key := s.Key, Val := s.Val }]) := by
  unfold setattr.Apply
  rw [hs]

theorem setattr_Apply_twice (s : setattr) (h : Heap) (n : Nat) :
    setattr.Apply s (setattr.Apply s h n) n = setattr.Apply s h n := by
  cases hs : setattr.scan s (h n).Attr with
  | some l =>
    rw [setattr_Apply_eq s h n l hs]
    have h2 : setattr.scan s (setAttr h n l n).Attr = some l := by
      simp only [setAttr_Attr, if_true]
      exact setattr_scan_idem s _ l hs
    rw [setattr_Apply_eq s _ n l h2, setAttr_setAttr]
  | none =>
    rw [setattr_Apply_eq_append s h n hs]
    have hno := setattr_scan_none s _ hs
    have h2 : setattr.scan s (setAttr h n ((h n).Attr ++
        [{ Namespace := "", Key := s.Key, Val := s.Val }]) n).Attr =
        some ((h n).Attr ++ [{ Namespace := "", Key := s.Key, Val := s.Val }]) := by
      simp only [setAttr_Attr, if_true]
      exact setattr_scan_hit s (h n).Attr { Namespace := "", Key := s.Key, Val := s.Val } []
        hno rfl
    rw [setattr_Apply_eq s _ n _ h2, setAttr_setAttr]

theorem rmattr_scan_hit (r : rmattr) (l1 : List Attribute) (a : Attribute)
    (l2 : List Attribute) (i : Int) (hno : ∀ b ∈ l1, b.Key ≠ r) (ha : a.Key = r) :
    rmattr.scan r (l1 ++ a :: l2) i = i + (l1.length : Int) := by
  induction l1 generalizing i with
  | nil => simp [rmattr.scan, ha]
  | cons b l ih =>
    have hb : b.Key ≠ r := hno b (List.mem_cons_self b l)
    have e := ih (i + 1) (fun c hc => hno c (List.mem_cons_of_mem b hc))
    show rmattr.scan r (b :: (l ++ a :: l2)) i = _
    simp only [rmattr.scan]
    rw [if_neg hb, e]
    simp only [List.length_cons]
    push_cast
    omega

/-! ## Lookup by id -/

theorem hasId_iff (v : String) (l : List Attribute) :
    Node.ById.hasId v l = true ↔ ∃ a ∈ l, a.Key = "id" ∧ a.Val = v := by
  induction l with
  | nil => simp [Node.ById.hasId]
  | cons a l ih =>
    simp only [Node.ById.hasId]
    by_cases ha : a.Key = "id" ∧ a.Val = v
    · rw [if_pos ha]
      simp [ha]
    · rw [if_neg ha, ih]
      constructor
      · rintro ⟨b, hb, hk⟩
        exact ⟨b, List.mem_cons_of_mem a hb, hk⟩
      · rintro ⟨b, hb, hk⟩
        rcases List.mem_cons.1 hb with e | hmem
        · exact absurd (e ▸ hk) ha
        · exact ⟨b, hmem, hk⟩

theorem ById_scan_spec (h : Heap) (v : String) (cl : Nat) (l1 rest : List Nat)
    (hno : ∀ b ∈ l1, ¬ HasId h v b) (hrest : ∀ c ∈ rest.head?, HasId h v c) :
    Node.ById.scan h v ((l1 ++ rest).map (fun a => { N := a, Cl := cl })) =
      rest.head?.map (fun c => { N := c, Cl := cl }) := by
  induction l1 with
  | nil =>
    cases rest with
    | nil => rfl
    | cons c l2 =>
      have hc : HasId h v c := hrest c (by simp)
      have := (hasId_iff v (h c).Attr).2 hc
      simp [Node.ById.scan, this]
  | cons b l ih =>
    have hb : ¬ HasId h v b := hno b (List.mem_cons_self b l)
    have hb2 : Node.ById.hasId v (h b).Attr ≠ true := fun e => hb ((hasId_iff v _).1 e)
    have e := ih (fun c hc => hno c (List.mem_cons_of_mem b hc))
    show Node.ById.scan h v ({ N := b, Cl := cl } :: (l ++ rest).map _) = _
    simp only [Node.ById.scan]
    rw [if_neg hb2, e]

/-! ## Resolving a path -/

theorem seek_total (h : Heap) (cs : List Nat) (p : Option Nat) (fuel : Nat) (i : Int)
    (hs : Seg (nextOf h) p cs none) (hf : cs.length ≤ fuel) :
    ipath.seek h fuel p i = some (if 0 ≤ i then cs[i.toNat]? else none) := by
  induction cs generalizing p fuel i with
  | nil =>
    have e : p = none := hs
    subst e
    cases fuel <;> simp [ipath.seek]
  | cons a l ih =>
    have e : p = some a := hs.1
    subst e
    cases fuel with
    | zero => simp at hf
    | succ f =>
      have hf2 : l.length ≤ f := by simpa using hf
      simp only [ipath.seek]
      by_cases hi : i = 0
      · subst hi
        simp
      · rw [if_neg hi]
        have := ih (nextOf h a) f (i - 1) hs.2 hf2
        unfold nextOf at this
        rw [this]
        by_cases hpos : 0 ≤ i
        · have h1 : 0 ≤ i - 1 := by omega
          have h2 : i.toNat = (i - 1).toNat + 1 := by omega
          rw [if_pos hpos, if_pos h1, h2]
          simp
        · have h1 : ¬ 0 ≤ i - 1 := by omega
          rw [if_neg hpos, if_neg h1]

theorem get_total (h : Heap) (wf : WellFormed h) (p : ipath) (n : Nat) :
    ∃ F, ∀ fuel, F ≤ fuel →
      ∃ t, ipath.get h fuel p n = some t ∧ (t = none ↔ Unresolvable h p n) := by
  induction p generalizing n with
  | nil =>
    refine ⟨0, fun fuel _ => ⟨some n, rfl, ?_⟩⟩
    constructor
    · intro e; cases e
    · intro e; cases e
  | cons i p ih =>
    obtain ⟨cs, hk, _⟩ := wf.kids n
    have hcs : ChildSeq h n cs := hk.1
    by_cases hin : 0 ≤ i ∧ i < (cs.length : Int)
    · obtain ⟨hpos, hlt⟩ := hin
      have hlt2 : i.toNat < cs.length := by omega
      have hc : cs[i.toNat]? = some (cs[i.toNat]) := List.getElem?_eq_getElem hlt2
      obtain ⟨F, hF⟩ := ih (cs[i.toNat])
      refine ⟨max F cs.length, ?_⟩
      intro fuel hf
      obtain ⟨t, ht, hiff⟩ := hF fuel (le_trans (le_max_left _ _) hf)
      have hs := seek_total h cs _ fuel i hcs (le_trans (le_max_right _ _) hf)
      rw [if_pos hpos, hc] at hs
      refine ⟨t, by simp only [ipath.get, hs, ht], ?_⟩
      rw [hiff]
      constructor
      · intro hu
        exact Unresolvable.deeper i p n cs _ hcs hpos hc hu
      · intro hu
        cases hu with
        | stop _ _ _ cs2 hcs2 hout =>
          have e : cs2 = cs := Seg_unique _ _ _ _ hcs2 hcs
          subst e
          omega
        | deeper _ _ _ cs2 c hcs2 _ hc2 hu2 =>
          have e : cs2 = cs := Seg_unique _ _ _ _ hcs2 hcs
          subst e
          rw [hc] at hc2
          cases hc2
          exact hu2
    · have hout : i < 0 ∨ (cs.length : Int) ≤ i := by omega
      refine ⟨cs.length, ?_⟩
      intro fuel hf
      have hs := seek_total h cs _ fuel i hcs hf
      have hnone : (if 0 ≤ i then cs[i.toNat]? else none) = none := by
        split
        · exact List.getElem?_eq_none (by omega)
        · rfl
      rw [hnone] at hs
      refine ⟨none, by simp only [ipath.get, hs], ?_⟩
      constructor
      · intro _
        exact Unresolvable.stop i p n cs hcs hout
      · intro _
        rfl

theorem apply_of_get_none (c : Change) (h : Heap) (fuel n : Nat)
    (hg : ipath.get h fuel c.IPath n = some none) :
    c.apply h fuel n = some (h, some { noNodeAtPath := c.IPath }) := by
  simp only [Change.apply, hg]

theorem apply_of_get_some (c : Change) (h : Heap) (fuel n t : Nat)
    (hg : ipath.get h fuel c.IPath n = some (some t)) :
    ∃ h2, c.apply h fuel n = some (h2, none) := by
  simp only [Change.apply, hg]
  cases c.Rmattr with
  | some r => exact ⟨_, rfl⟩
  | none =>
    cases c.Setattr with
    | some s => exact ⟨_, rfl⟩
    | none =>
      cases c.InsertNode with
      | some ins => exact ⟨_, rfl⟩
      | none => exact ⟨_, rfl⟩

/-! ## The claims, continued -/

/-- C11 (insert/remove inverse), evaluated at the failing input: the root `0` of
`sampleHeap` has the children `1, 2` and node `4` is detached.  After
`insertNode{1, 4}.Apply` and then `rmnode(1).Apply` the node `1` is its own next
sibling, so the forward traversal `children` returns for no amount of fuel: the
child sequence `1, 2` is not restored. -/
theorem C11_insert_then_remove_not_inverse :
    ChildSeq sampleHeap 0 [1, 2] ∧
      ∃ h2, rmnode.Apply 1 (insertNode.Apply { i := 1, n := 4 } sampleHeap 0) 0 = some h2 ∧
        (h2 0).FirstChild = some 1 ∧ (h2 1).NextSibling = some 1 ∧
        ∀ fuel, Node.children { N := 0, Cl := 0 } h2 fuel = none := by
  refine ⟨by decide, ?_⟩
  cases hr : rmnode.Apply 1 (insertNode.Apply { i := 1, n := 4 } sampleHeap 0) 0 with
  | none =>
    have hs : (rmnode.Apply 1 (insertNode.Apply { i := 1, n := 4 } sampleHeap 0) 0).isSome
        = true := by decide
    rw [hr] at hs
    cases hs
  | some h2 =>
    have hl : (rmnode.Apply 1 (insertNode.Apply { i := 1, n := 4 } sampleHeap 0) 0).map
        (fun g => ((g 0).FirstChild, (g 1).NextSibling)) = some (some 1, some 1) := by decide
    rw [hr] at hl
    simp only [Option.map_some', Option.some.injEq, Prod.mk.injEq] at hl
    obtain ⟨e0, e1⟩ := hl
    refine ⟨h2, rfl, e0, e1, ?_⟩
    intro fuel
    unfold Node.children
    rw [e0]
    induction fuel with
    | zero => rfl
    | succ f ih =>
      simp only [Node.childrenFrom, e1]
      rw [ih]
      rfl

/-- C12 (patch application fails exactly on unresolvable paths and is atomic):
in a well-formed memory, for every Change `c` and node `r`, for every
sufficiently large fuel `c.IPath.get(r)` returns a result `t` and `c.apply(r)`
returns; the error is non-nil exactly when `t` is nil, `t` is nil exactly when
at some depth the index of the path is negative or not below the number of
children of the node reached so far, and when the error is non-nil the memory
afterwards is the memory before. -/
theorem C12_apply_fails_iff_unresolvable (c : Change) (h : Heap) (r : Nat)
    (wf : WellFormed h) :
    ∃ F, ∀ fuel, F ≤ fuel →
      ∃ t h2 err, ipath.get h fuel c.IPath r = some t ∧
        c.apply h fuel r = some (h2, err) ∧
        (err ≠ none ↔ t = none) ∧
        (t = none ↔ Unresolvable h c.IPath r) ∧
        (err ≠ none → h2 = h) := by
  obtain ⟨F, hF⟩ := get_total h wf c.IPath r
  refine ⟨F, ?_⟩
  intro fuel hf
  obtain ⟨t, ht, hiff⟩ := hF fuel hf
  cases t with
  | none =>
    refine ⟨none, h, some { noNodeAtPath := c.IPath }, ht,
      apply_of_get_none c h fuel r ht, ?_, hiff, fun _ => rfl⟩
    simp
  | some target =>
    obtain ⟨h2, e2⟩ := apply_of_get_some c h fuel r target ht
    refine ⟨some target, h2, none, ht, e2, ?_, hiff, ?_⟩
    · simp
    · intro hne
      exact absurd rfl hne

theorem C12_apply_fails_iff_unresolvable_witness :
    ∃ F, ∀ fuel, F ≤ fuel →
      ∃ t h2 err, ipath.get sampleHeap fuel [0, 5] 0 = some t ∧
        ({ IPath := [0, 5], Setattr := some { Key := "class", Val := "big" } } : Change).apply
          sampleHeap fuel 0 = some (h2, err) ∧
        (err ≠ none ↔ t = none) ∧
        (t = none ↔ Unresolvable sampleHeap [0, 5] 0) ∧
        (err ≠ none → h2 = sampleHeap) :=
  C12_apply_fails_iff_unresolvable
    { IPath := [0, 5], Setattr := some { Key := "class", Val := "big" } } sampleHeap 0
    sampleHeap_wellFormed

/-- C13 (Body is total), evaluated at the failing input: for the handle of a
document node without children the index expression `n.children()[0]` of `Body`
fails at run time (index out of range), for every value of `atom.Body` and
every amount of fuel; `Body` does not return the original handle. -/
theorem C13_Body_fails_on_empty_document :
    (emptyDocHeap 0).Typ = NodeType.DocumentNode ∧ ChildSeq emptyDocHeap 0 [] ∧
      ∀ atomBody fuel, Node.Body { N := 0, Cl := 0 } atomBody emptyDocHeap fuel = some none := by
  refine ⟨rfl, by decide, ?_⟩
  intro atomBody fuel
  cases fuel <;> rfl

/-- C14 (Body finds the body of the document), evaluated at the failing input:
in `doctypeDocHeap` the document `0` has the children doctype `1` and html `2`,
and the html element has the body-tagged child `4`; `Body` scans the children
of the first child (the doctype, which has none) and returns the handle of the
document itself instead of the handle of the body element `4`. -/
theorem C14_Body_misses_body_after_doctype (atomBody : Nat) :
    (doctypeDocHeap atomBody 0).Typ = NodeType.DocumentNode ∧
      ChildSeq (doctypeDocHeap atomBody) 0 [1, 2] ∧
      ChildSeq (doctypeDocHeap atomBody) 2 [3, 4] ∧
      (doctypeDocHeap atomBody 4).DataAtom = atomBody ∧
      Node.Body { N := 0, Cl := 0 } atomBody (doctypeDocHeap atomBody) 10
        = some (some { N := 0, Cl := 0 }) :=
  ⟨rfl, ⟨rfl, rfl, rfl⟩, ⟨rfl, rfl, rfl⟩, rfl, rfl⟩

/-- C15 (ById is a shallow first-match search): let the forward child sequence
of the handle `n` be `l1` followed by `rest`, where no node of `l1` has an
attribute pair `id = v` and the first node of `rest`, if there is one, has such
a pair.  Then `ById(v)` returns the handle of that first node of `rest` with the
changelog of `n`, and `nil` when `rest` is empty, that is when no direct child
has such a pair, whatever the deeper descendants carry. -/
theorem C15_ById_first_direct_child (n : Node) (v : String) (h : Heap) (fuel : Nat)
    (l1 rest : List Nat) (hcs : ChildSeq h n.N (l1 ++ rest))
    (hno : ∀ b ∈ l1, ¬ HasId h v b) (hrest : ∀ c ∈ rest.head?, HasId h v c)
    (hf : (l1 ++ rest).length ≤ fuel) :
    n.ById v h fuel = some (rest.head?.map (fun c => { N := c, Cl := n.Cl })) := by
  unfold Node.ById Node.children
  rw [childrenFrom_of_seg h n.Cl (l1 ++ rest) _ fuel hcs hf]
  simp only [Option.map_some', Option.some.injEq]
  exact ById_scan_spec h v n.Cl l1 rest hno hrest

theorem C15_ById_first_direct_child_witness :
    (Node.ById { N := 0, Cl := 7 } "counter" sampleHeap 5
        = some (([1, 2] : List Nat).head?.map (fun c => { N := c, Cl := 7 }))) ∧
      (Node.ById { N := 0, Cl := 7 } "counter" (doctypeDocHeap 9) 5
        = some (([] : List Nat).head?.map (fun c => { N := c, Cl := 7 })) ∧
        HasId (doctypeDocHeap 9) "counter" 5) :=
  ⟨C15_ById_first_direct_child { N := 0, Cl := 7 } "counter" sampleHeap 5 [] [1, 2]
    (by decide)
    (by intro b hb; cases hb)
    (by
      intro c hc
      simp only [List.head?_cons, Option.mem_def, Option.some.injEq] at hc
      subst hc
      exact ⟨{ Namespace := "", Key := "id", Val := "counter" }, List.mem_singleton_self _,
        rfl, rfl⟩)
    (by decide),
   C15_ById_first_direct_child { N := 0, Cl := 7 } "counter" (doctypeDocHeap 9) 5 [1, 2] []
    (by decide)
    (by
      intro b hb
      rintro ⟨a, ha, _⟩
      simp only [List.mem_cons, List.mem_singleton, List.not_mem_nil, or_false] at hb
      rcases hb with e | e <;> subst e <;> cases ha)
    (by
      intro c hc
      cases hc)
    (by decide),
   ⟨{ Namespace := "", Key := "id", Val := "counter" }, List.mem_singleton_self _, rfl, rfl⟩⟩

/-- C16 (setAttribute overwrite-or-append): let the attribute sequence of the
node be `l1` followed by `rest`, where no pair of `l1` has the key `k` and the
first pair of `rest`, if there is one, has the key `k`.  After
`setattr{k, v}.Apply` the sequence is `l1`, then that first pair with its value
replaced by `v`, then the remainder of `rest` unchanged (same length, same
positions); when `rest` is empty, that is when no pair has the key `k`, it is
the old sequence followed by the new pair `(k, v)`.  Other nodes are unchanged. -/
theorem C16_setattr_overwrite_or_append (h : Heap) (n : Nat) (k v : String)
    (l1 rest : List Attribute) (hsplit : (h n).Attr = l1 ++ rest)
    (hno : ∀ b ∈ l1, b.Key ≠ k) (hrest : ∀ a ∈ rest.head?, a.Key = k) :
    (setattr.Apply { Key := k, Val := v } h n n).Attr =
        l1 ++ (match rest with
          | [] => [{ Namespace := "", Key := k, Val := v }]
          | a :: l2 => { a with Val := v } :: l2) ∧
      ∀ m, m ≠ n → setattr.Apply { Key := k, Val := v } h n m = h m := by
  cases rest with
  | nil =>
    have hall : ∀ b ∈ (h n).Attr, b.Key ≠ ({ Key := k, Val := v } : setattr).Key := by
      rw [hsplit, List.append_nil]
      exact hno
    rw [setattr_Apply_eq_append _ h n (setattr_scan_miss _ _ hall)]
    refine ⟨by simp [hsplit], ?_⟩
    intro m hm
    simp [setAttr, Function.update_noteq hm]
  | cons a l2 =>
    have ha : a.Key = k := hrest a (by simp)
    have hs : setattr.scan { Key := k, Val := v } (h n).Attr
        = some (l1 ++ { a with Val := v } :: l2) := by
      rw [hsplit]
      exact setattr_scan_hit { Key := k, Val := v } l1 a l2 hno ha
    rw [setattr_Apply_eq _ h n _ hs]
    refine ⟨by simp, ?_⟩
    intro m hm
    simp [setAttr, Function.update_noteq hm]

theorem C16_setattr_overwrite_or_append_witness :
    (setattr.Apply { Key := "id", Val := "total" } sampleHeap 1 1).Attr =
        [] ++ (match [({ Namespace := "", Key := "id", Val := "counter" } : Attribute)] with
          | [] => [{ Namespace := "", Key := "id", Val := "total" }]
          | a :: l2 => { a with Val := "total" } :: l2) ∧
      ∀ m, m ≠ 1 → setattr.Apply { Key := "id", Val := "total" } sampleHeap 1 m = sampleHeap m :=
  C16_setattr_overwrite_or_append sampleHeap 1 "id" "total" []
    [{ Namespace := "", Key := "id", Val := "counter" }] rfl
    (by intro b hb; cases hb)
    (by
      intro a ha
      simp only [List.head?_cons, Option.mem_def, Option.some.injEq] at ha
      subst ha
      rfl)

/-- C17 (setAttribute idempotence): for every memory, node, key and value,
applying `setattr{k, v}.Apply` twice in a row gives the same memory, and so the
same attribute sequence of the node, as applying it once. -/
theorem C17_setattr_idempotent (h : Heap) (n : Nat) (k v : String) :
    setattr.Apply { Key := k, Val := v } (setattr.Apply { Key := k, Val := v } h n) n =
        setattr.Apply { Key := k, Val := v } h n ∧
      (setattr.Apply { Key := k, Val := v } (setattr.Apply { Key := k, Val := v } h n) n n).Attr =
        (setattr.Apply { Key := k, Val := v } h n n).Attr := by
  have e := setattr_Apply_twice { Key := k, Val := v } h n
  exact ⟨e, by rw [e]⟩

/-- C18 (removeAttribute removes exactly the first match): let the attribute
sequence of the node be `l1` followed by `rest`, where no pair of `l1` has the
key `k` and the first pair of `rest`, if there is one, has the key `k`.  After
`rmattr(k).Apply` the sequence is `l1` followed by `rest` without its first
pair (later pairs with the key `k` are kept, in order); when `rest` is empty,
that is when no pair has the key `k`, it is the old sequence.  Other nodes are
unchanged. -/
theorem C18_rmattr_removes_first_match (h : Heap) (n : Nat) (k : String)
    (l1 rest : List Attribute) (hsplit : (h n).Attr = l1 ++ rest)
    (hno : ∀ b ∈ l1, b.Key ≠ k) (hrest : ∀ a ∈ rest.head?, a.Key = k) :
    (rmattr.Apply k h n n).Attr = l1 ++ rest.tail ∧
      ∀ m, m ≠ n → rmattr.Apply k h n m = h m := by
  cases rest with
  | nil =>
    have hall : ∀ b ∈ (h n).Attr, b.Key ≠ k := by
      rw [hsplit, List.append_nil]
      exact hno
    rw [rmattr_Apply_absent k h n hall]
    exact ⟨by simp [hsplit], fun _ _ => rfl⟩
  | cons a l2 =>
    have ha : a.Key = k := hrest a (by simp)
    have hs : rmattr.scan k (h n).Attr 0 = (l1.length : Int) := by
      rw [hsplit, rmattr_scan_hit k l1 a l2 0 hno ha]
      simp
    have hne : rmattr.scan k (h n).Attr 0 ≠ -1 := by
      rw [hs]
      omega
    unfold rmattr.Apply
    simp only [hne, ne_eq, not_false_eq_true, if_true, hs, Int.toNat_ofNat]
    refine ⟨?_, ?_⟩
    · simp [hsplit]
    · intro m hm
      simp [setAttr, Function.update_noteq hm]

theorem C18_rmattr_removes_first_match_witness :
    (rmattr.Apply "id" sampleHeap 1 1).Attr =
        [] ++ ([({ Namespace := "", Key := "id", Val := "counter" } : Attribute)]).tail ∧
      ∀ m, m ≠ 1 → rmattr.Apply "id" sampleHeap 1 m = sampleHeap m :=
  C18_rmattr_removes_first_match sampleHeap 1 "id" []
    [{ Namespace := "", Key := "id", Val := "counter" }] rfl
    (by intro b hb; cases hb)
    (by
      intro a ha
      simp only [List.head?_cons, Option.mem_def, Option.some.injEq] at ha
      subst ha
      rfl)

/-- C19 (patch application dispatches every variant), evaluated at the failing
input: the Change with only `Rmnode = 0` and the empty path resolves to the root
`2` of `twinHeap`, which has the only child `3`; `Change.apply` returns no error
and leaves the child in place, whereas `rmnode(0).Apply` called directly on the
root removes it. -/
theorem C19_apply_does_not_dispatch_Rmnode :
    ipath.get twinHeap 10 [] 2 = some (some 2) ∧
      (∃ hB, ({ IPath := [], Rmnode := some 0 } : Change).apply twinHeap 10 2 = some (hB, none) ∧
        Node.children { N := 2, Cl := 0 } hB 10 = some [{ N := 3, Cl := 0 }]) ∧
      (rmnode.Apply 0 twinHeap 2).bind (fun g => Node.children { N := 2, Cl := 0 } g 10)
        = some [] := by
  refine ⟨rfl, ⟨_, rfl, ?_⟩, ?_⟩ <;> decide

/-- C20 (insertChild preserves tree consistency), evaluated at the failing
inputs: `sampleHeap` is well formed, its root `0` has the children `1, 2` and
node `4` is detached.  After `insertNode{2, 4}.Apply` (an append) `LastChild` of
the root is still `2`, whose next sibling is now `4`; after
`insertNode{0, 4}.Apply` (a prepend) `FirstChild` is still `1`, whose previous
sibling is now `4`.  Neither memory is well formed. -/
theorem C20_insert_breaks_first_last :
    WellFormed sampleHeap ∧
      ((insertNode.Apply { i := 2, n := 4 } sampleHeap 0 0).LastChild = some 2 ∧
        (insertNode.Apply { i := 2, n := 4 } sampleHeap 0 2).NextSibling = some 4 ∧
        (insertNode.Apply { i := 2, n := 4 } sampleHeap 0 4).Parent = some 0 ∧
        ¬ WellFormed (insertNode.Apply { i := 2, n := 4 } sampleHeap 0)) ∧
      ((insertNode.Apply { i := 0, n := 4 } sampleHeap 0 0).FirstChild = some 1 ∧
        (insertNode.Apply { i := 0, n := 4 } sampleHeap 0 1).PrevSibling = some 4 ∧
        (insertNode.Apply { i := 0, n := 4 } sampleHeap 0 4).Parent = some 0 ∧
        ¬ WellFormed (insertNode.Apply { i := 0, n := 4 } sampleHeap 0)) := by
  refine ⟨sampleHeap_wellFormed, ⟨by decide, by decide, by decide, ?_⟩,
    ⟨by decide, by decide, by decide, ?_⟩⟩
  · intro wf
    obtain ⟨cs, hk, _⟩ := wf.kids 0
    have hf : ChildSeq (insertNode.Apply { i := 2, n := 4 } sampleHeap 0) 0 [1, 2, 4] := by
      decide
    have e : cs = [1, 2, 4] := Seg_unique _ _ _ _ hk.1 hf
    subst e
    exact absurd hk (by decide)
  · intro wf
    obtain ⟨cs, hk, hall⟩ := wf.kids 0
    have hf : ChildSeq (insertNode.Apply { i := 0, n := 4 } sampleHeap 0) 0 [1, 2] := by
      decide
    have e : cs = [1, 2] := Seg_unique _ _ _ _ hk.1 hf
    subst e
    have h4 := hall 4 (by decide)
    exact absurd h4 (by decide)

/-! ## Invocations that never return -/

theorem path_parent_cycle (h : Heap) (a b : Nat) (ha : (h a).Parent = some b)
    (hb : (h b).Parent = some a) (fuel : Nat) :
    path h fuel a = none ∧ path h fuel b = none := by
  induction fuel with
  | zero => exact ⟨rfl, rfl⟩
  | succ f ih =>
    constructor
    · simp only [path, ha, ih.2]
      cases path.count h (f + 1) (h a).PrevSibling <;> rfl
    · simp only [path, hb, ih.1]
      cases path.count h (f + 1) (h b).PrevSibling <;> rfl

/-- C9, counterexample: `sampleHeap` is well formed and the changelog `0` is
empty.  The first invocation, `setattr("class", "big")` on the handle of node
`1`, returns and leaves one Change in the Buffer; the second, `Insert` of the
root `0` at index 0 on the same handle, makes node `0` a child of its own child,
so `path` never returns and neither does the invocation, for any amount of
fuel: two invocations were made and the Buffer never holds two Changes. -/
theorem C9_changelog_accounting_counterexample :
    WellFormed sampleHeap ∧ (sampleWorld.logs 0).Buffer = [] ∧
      (Node.setattr { N := 1, Cl := 0 } "class" "big" 10 sampleWorld).map
          (fun w1 => (w1.logs 0).Buffer)
        = some [{ IPath := [0], Setattr := some { Key := "class", Val := "big" } }] ∧
      ∀ fuel,
        invokeAll fuel
          [({ N := 1, Cl := 0 }, Mutation.setattr "class" "big"),
           ({ N := 1, Cl := 0 }, Mutation.Insert 0 0)] sampleWorld = none := by
  refine ⟨sampleHeap_wellFormed, rfl, by decide, ?_⟩
  intro fuel
  simp only [invokeAll, Mutation.invoke]
  cases hs : Node.setattr { N := 1, Cl := 0 } "class" "big" fuel sampleWorld with
  | none => rfl
  | some w1 =>
    have hw : w1.heap = setattr.Apply { Key := "class", Val := "big" } sampleHeap 1 := by
      simp only [Node.setattr] at hs
      split at hs
      · cases hs
      · cases hs
        rfl
    have hcyc := path_parent_cycle
      (insertNode.Apply { i := 0, n := 0 }
        (setattr.Apply { Key := "class", Val := "big" } sampleHeap 1) 1) 1 0
      (by decide) (by decide) fuel
    simp only [Node.Insert, hw, hcyc.1]
    rfl

/-- C10, counterexample: `sampleHeap` is well formed, node `1` has the only child
`3`, the changelog `0` is empty, and the root `0` is detached (no parent, no
siblings).  `Rm(0)` on the handle of node `1` returns, but the following
`Insert` of node `0` at index 0 makes node `0` a child of its own child, so
`path` never returns and neither does `Insert`, for any amount of fuel: the
second Change is never appended. -/
theorem C10_replace_sole_child_counterexample :
    WellFormed sampleHeap ∧ ChildSeq sampleHeap 1 [3] ∧ Detached sampleHeap 0 ∧
      (sampleWorld.logs 0).Buffer = [] ∧
      (Node.Rm { N := 1, Cl := 0 } 0 10 sampleWorld).map (fun w1 => (w1.logs 0).Buffer)
        = some [{ IPath := [0], Rmnode := some 0 }] ∧
      ∀ fuel w1, Node.Rm { N := 1, Cl := 0 } 0 fuel sampleWorld = some w1 →
        Node.Insert { N := 1, Cl := 0 } 0 0 fuel w1 = none := by
  refine ⟨sampleHeap_wellFormed, by decide, ⟨rfl, rfl, rfl⟩, rfl, by decide, ?_⟩
  intro fuel w1 hrm
  simp only [Node.Rm] at hrm
  cases hr : rmnode.Apply 0 sampleWorld.heap 1 with
  | none =>
    rw [hr] at hrm
    cases hrm
  | some h1 =>
    have hl : (rmnode.Apply 0 sampleWorld.heap 1).map
        (fun g => ((insertNode.Apply { i := 0, n := 0 } g 1 1).Parent,
          (insertNode.Apply { i := 0, n := 0 } g 1 0).Parent)) = some (some 0, some 1) := by
      decide
    rw [hr] at hl
    simp only [hr] at hrm
    simp only [Option.map_some', Option.some.injEq, Prod.mk.injEq] at hl
    have hw : w1.heap = h1 := by
      split at hrm
      · cases hrm
      · cases hrm
        rfl
    have hcyc := path_parent_cycle (insertNode.Apply { i := 0, n := 0 } h1 1) 1 0
      hl.1 hl.2 fuel
    simp only [Node.Insert, hw, hcyc.1]

end Shortcircuit
